import Mathlib

/-!
Verification of the nyxstack/i18n translation library core.

Strings are modelled as `List Char` (Go iterates these strings by rune at every
point the claims touch, and all patterns searched for are ASCII, so byte
positions and rune positions agree at every call site).  Go's `strings`
helpers (`ReplaceAll`, `Contains`, `Index`, `TrimSpace`, `Trim`, `Join`) are
embedded as executable functions below; the two `for strings.Contains(..)`
collapse loops of `slugify` are embedded with an explicit fuel equal to the
string length, which is enough for the loop to reach its fixed point (each
iteration that fires strictly shrinks the string).

Arguments of `T`/`F` are modelled by their `fmt.Sprint` string forms, which is
how the claims speak about them ("the stringified i-th argument").
-/

namespace I18n

/-- The format-verb alphabet of the pre-compiled pattern regexp. A match is a
percent sign followed by one of these characters. -/
def isVerb (c : Char) : Bool :=
  c == 's' || c == 'd' || c == 'v' || c == 'q' || c == 'x' || c == 'X' || c == 'o'

/-- Substring test at the head of a string: `startsWith s p` holds when `p` is
an initial segment of `s`. -/
def startsWith : List Char → List Char → Bool
  | _, [] => true
  | [], _ :: _ => false
  | c :: cs, p :: ps => c == p && startsWith cs ps

/-- `strings.ReplaceAll`, with fuel.  Every step either copies one character or
consumes `p.length ≥ 1` characters, so fuel `s.length` always suffices; the
wrapper `replaceAll` supplies exactly that.  (Go's behaviour on the empty
pattern is never exercised: every pattern passed in this code base is
non-empty, and we return `s` unchanged in that case.) -/
def replaceAllFuel : Nat → List Char → List Char → List Char → List Char
  | 0, s, _, _ => s
  | fuel + 1, s, p, r =>
    if p = [] then s
    else if startsWith s p then r ++ replaceAllFuel fuel (s.drop p.length) p r
    else
      match s with
      | [] => []
      | c :: cs => c :: replaceAllFuel fuel cs p r

/-- `strings.ReplaceAll s p r`: replace every non-overlapping occurrence of `p`
in `s` (scanning left to right) by `r`. -/
def replaceAll (s p r : List Char) : List Char := replaceAllFuel s.length s p r

/-- `strings.Contains s p`. -/
def containsSeq : List Char → List Char → Bool
  | [], p => startsWith [] p
  | c :: cs, p => startsWith (c :: cs) p || containsSeq cs p

/-- `strings.Index s p`, as an `Option` (`none` for Go's `-1`). -/
def indexOfSeq : List Char → List Char → Option Nat
  | [], p => if startsWith [] p then some 0 else none
  | c :: cs, p =>
    if startsWith (c :: cs) p then some 0 else (indexOfSeq cs p).map (· + 1)

/-- The whitespace class of `strings.TrimSpace`, restricted to ASCII.  At the
single call site (inside `slugify`'s segment cleaning) the argument contains
only `[a-z0-9 ]`, so the ASCII set is exact there. -/
def isSpaceGo (c : Char) : Bool :=
  c == ' ' || c == '\t' || c == '\n' || c == '\x0b' || c == '\x0c' || c == '\r'

/-- Drop the longest suffix all of whose characters satisfy `p`. -/
def dropWhileEnd (p : Char → Bool) (s : List Char) : List Char :=
  (s.reverse.dropWhile p).reverse

/-- `strings.TrimSpace`. -/
def trimSpace (s : List Char) : List Char :=
  dropWhileEnd isSpaceGo (s.dropWhile isSpaceGo)

def isDashChar (c : Char) : Bool := c == '-'

/-- `strings.Trim s "-"`. -/
def trimDashes (s : List Char) : List Char :=
  dropWhileEnd isDashChar (s.dropWhile isDashChar)

/-- One iteration body of the Go loop
`for strings.Contains(s, "cc") disch s = strings.ReplaceAll(s, "cc", "c")`,
iterated with fuel; fuel `s.length` reaches the fixed point because every
firing iteration strictly shrinks the string. -/
def collapseFuel : Nat → List Char → Char → List Char
  | 0, s, _ => s
  | fuel + 1, s, c =>
    if containsSeq s [c, c] then collapseFuel fuel (replaceAll s [c, c] [c]) c
    else s

/-- The collapse loop of `slugify` (used for `"  "` → `" "` and `"--"` → `"-"`). -/
def collapseChar (s : List Char) (c : Char) : List Char := collapseFuel s.length s c

/-- Prepend a character to the first part of a part list (helper for the
split-by-token scan). -/
def consHead (c : Char) : List (List Char) → List (List Char)
  | [] => [[c]]
  | p :: ps => (c :: p) :: ps

/-- The match scan, written as a single left-to-right pass carrying the one
pending (not yet consumed) character, so that the recursion is structural on
the remaining input: when the pending character is `%` and the next one is a
verb character, that two-character window is a match and the scan resumes
after it; otherwise the scan slides one character forward. -/
def fmGo : Option Char → List Char → List (List Char)
  | _, [] => []
  | none, c :: cs => fmGo (some c) cs
  | some p, c :: cs =>
    if p == '%' && isVerb c then ['%', c] :: fmGo none cs
    else fmGo (some c) cs

/-- `argPattern.FindAllString format -1`: the ordered, non-overlapping,
leftmost-first occurrences of `%` followed by a verb character. -/
def findMatches (s : List Char) : List (List Char) := fmGo none s

/-- The split scan: pending-character pass building the literal segments
between matches. -/
def spGo : Option Char → List Char → List (List Char)
  | none, [] => [[]]
  | some p, [] => [[p]]
  | none, c :: cs => spGo (some c) cs
  | some p, c :: cs =>
    if p == '%' && isVerb c then [] :: spGo none cs
    else consHead p (spGo (some c) cs)

/-- `argPattern.Split format -1`: the literal segments between the matches (one
more segment than there are matches); same pending-character scan as `fmGo`. -/
def splitParts (s : List Char) : List (List Char) := spGo none s

/-- The canonical numbered placeholder `fmt.Sprintf("{%d}", i)`. -/
def placeholder (i : Nat) : List Char := '{' :: (Nat.toDigits 10 i ++ ['}'])

/-- The rewrite scan of `normalize` (`argPattern.ReplaceAllStringFunc` with an
incrementing counter): same pending-character pass, emitting `placeholder n`
for the n-th match (0-based). -/
def nGo : Option Char → List Char → Nat → List Char
  | none, [], _ => []
  | some p, [], _ => [p]
  | none, c :: cs, n => nGo (some c) cs n
  | some p, c :: cs, n =>
    if p == '%' && isVerb c then placeholder n ++ nGo none cs (n + 1)
    else p :: nGo (some c) cs n

def normalizeChars (s : List Char) (n : Nat) : List Char := nGo none s n

/-- `normalize`: the rewritten template together with the ordered matches. -/
def normalize (format : List Char) : List Char × List (List Char) :=
  (normalizeChars format 0, findMatches format)

/-- `strings.ToLower`, restricted to ASCII (65–90 are the code points of
`A`–`Z`; adding 32 lands on `a`–`z`, exactly as Go maps them).  In `slugify`
every character that is not an ASCII lower-case letter or digit is discarded
(turned into a space) right after lowering, and the only characters whose Go
lowering lands in `[a-z0-9]` are ASCII capitals, so ASCII lowering is
sufficient at this call site. -/
def toLowerGo (c : Char) : Char :=
  if 65 ≤ c.toNat ∧ c.toNat ≤ 90 then Char.ofNat (c.toNat + 32) else c

/-- The character filter of `slugify`'s cleaning loop: keep `[a-z0-9]`
(Go's `r >= 'a' && r <= 'z' || r >= '0' && r <= '9'`, as code points:
97–122 are `a`–`z` and 48–57 are `0`–`9`). -/
def keepAlnum (c : Char) : Bool :=
  decide ((97 ≤ c.toNat ∧ c.toNat ≤ 122) ∨ (48 ≤ c.toNat ∧ c.toNat ≤ 57))

/-- Replace every character outside `[a-z0-9]` by a space. -/
def spaceOut (c : Char) : Char := if keepAlnum c then c else ' '

/-- The per-segment cleaning step of `slugify`: lowercase, keep `[a-z0-9]`
(others become spaces), trim, collapse runs of spaces, then spaces to dashes. -/
def cleanPiece (p : List Char) : List Char :=
  let lowered := p.map toLowerGo
  let spaced := lowered.map spaceOut
  let trimmed := trimSpace spaced
  let collapsed := collapseChar trimmed ' '
  replaceAll collapsed [' '] ['-']

/-- The main loop of `slugify`: for each segment append its cleaned form when
non-empty, and after the i-th segment (while `i < m`, the match count) append
the decimal digits of `i`. -/
def buildOut : List (List Char) → Nat → Nat → List (List Char)
  | [], _, _ => []
  | p :: ps, i, m =>
    (if p ≠ [] ∧ cleanPiece p ≠ [] then [cleanPiece p] else []) ++
      (if i < m then [Nat.toDigits 10 i] else []) ++ buildOut ps (i + 1) m

/-- `strings.Join out "-"`. -/
def joinDash : List (List Char) → List Char
  | [] => []
  | [p] => p
  | p :: ps => p ++ '-' :: joinDash ps

/-- `slugify`: split on the token alphabet, clean the literal segments, embed
the 0-based token indices, join with dashes, collapse double dashes, trim
leading and trailing dashes. -/
def slugify (format : List Char) : List Char :=
  let parts := splitParts format
  let ms := findMatches format
  let out := buildOut parts 0 ms.length
  let key := joinDash out
  trimDashes (collapseChar key '-')

/-- The maximal runs of decimal digit characters of a string, in order (used to
formalise "digit-indicators appearing in the key"). -/
def digitRuns : List Char → List (List Char)
  | [] => []
  | c :: cs =>
    if c.isDigit then
      match cs with
      | [] => [[c]]
      | c2 :: _ =>
        if c2.isDigit then
          match digitRuns cs with
          | r :: rs => (c :: r) :: rs
          | [] => [[c]]
        else [c] :: digitRuns cs
    else digitRuns cs

/-- `determinePluralForm`: the simplified per-family plural rule table. -/
def determinePluralForm (locale : List Char) (count : Int) : List Char :=
  if locale = "en".data ∨ locale = "de".data ∨ locale = "it".data ∨
      locale = "es".data ∨ locale = "pt".data then
    if count = 0 then "zero".data
    else if count = 1 then "one".data
    else "other".data
  else if locale = "fr".data then
    if count = 0 then "zero".data
    else if count = 1 then "one".data
    else "other".data
  else if locale = "ru".data ∨ locale = "uk".data ∨ locale = "be".data then
    if count = 0 then "zero".data
    else if count = 1 then "one".data
    else if 2 ≤ count ∧ count ≤ 4 then "few".data
    else "many".data
  else if locale = "pl".data then
    if count = 0 then "zero".data
    else if count = 1 then "one".data
    else if 2 ≤ count ∧ count ≤ 4 then "few".data
    else "many".data
  else if locale = "ar".data then
    if count = 0 then "zero".data
    else if count = 1 then "one".data
    else if count = 2 then "two".data
    else if 3 ≤ count ∧ count ≤ 10 then "few".data
    else if 11 ≤ count ∧ count ≤ 99 then "many".data
    else "other".data
  else
    if count = 0 then "zero".data
    else if count = 1 then "one".data
    else "other".data

/-- `fmt.Sprint` of a Go `int`. -/
def intToChars (i : Int) : List Char :=
  if i < 0 then '-' :: Nat.toDigits 10 i.natAbs else Nat.toDigits 10 i.toNat

/-- The brace scan of `extractPluralForm`: walk `content` tracking nested-brace
depth (starting at the given depth, 1 at the top call); return the index where
the depth first returns to 0, and 0 when the scan runs out — exactly the Go
loop, whose `end` variable stays at its zero initialisation in that case. -/
def scanEnd : List Char → Nat → Nat → Nat
  | [], _, _ => 0
  | c :: cs, depth, i =>
    if c = '{' then scanEnd cs (depth + 1) (i + 1)
    else if c = '}' then
      if depth = 1 then i else scanEnd cs (depth - 1) (i + 1)
    else scanEnd cs depth (i + 1)

/-- Specification-level version of the brace scan: `some i` when the depth
first returns to 0 at index `i`, `none` when no matching close brace exists. -/
def findClose? : List Char → Nat → Option Nat
  | [], _ => none
  | c :: cs, depth =>
    if c = '{' then (findClose? cs (depth + 1)).map (· + 1)
    else if c = '}' then
      if depth = 1 then some 0 else (findClose? cs (depth - 1)).map (· + 1)
    else (findClose? cs depth).map (· + 1)

/-- `extractPluralForm`: locate `"<form> {"`, take the brace-balanced
sub-template, substitute `#` by the decimal count, trim; empty string is the
not-found sentinel. -/
def extractPluralForm (template form : List Char) (count : Int) : List Char :=
  let star := form ++ [' ', '{']
  match indexOfSeq template star with
  | none => []
  | some idx =>
    let content := template.drop (idx + star.length)
    let e := scanEnd content 1 0
    if e = 0 then []
    else trimSpace (replaceAll (content.take e) ['#'] (intToChars count))

/-- Modelled from the spec: the sub-template extraction that §4.4 describes,
`Option`-valued — `none` when the category is absent or no matching close
brace exists, `some sub` (the untrimmed, unsubstituted sub-template)
otherwise.  Used to state C5 as a refinement. -/
def extractPluralFormSpec (template form : List Char) : Option (List Char) :=
  match indexOfSeq template (form ++ [' ', '{']) with
  | none => none
  | some idx =>
    let content := template.drop (idx + (form ++ [' ', '{']).length)
    match findClose? content 1 with
    | none => none
    | some e => some (content.take e)

/-- One language's translations (`Dictionary`).  Go's translation map is
modelled as an association list (first binding wins). -/
structure Dictionary where
  Lang : List Char
  Translations : List (List Char × List Char)
deriving DecidableEq

/-- The global registry state: the dictionary map together with the current
default-language setting. -/
structure Registry where
  dictionaries : List Dictionary
  currentLang : List Char

/-- Association-list lookup (Go map indexing). -/
def lookupA : List (List Char × List Char) → List Char → Option (List Char)
  | [], _ => none
  | (k, v) :: rest, key => if k = key then some v else lookupA rest key

/-- `GetDictionary`: fetch the dictionary registered for a language code.
`Register` keys the map by `dict.Lang`, which the `find?` predicate mirrors. -/
def GetDictionary (reg : Registry) (lang : List Char) : Option Dictionary :=
  reg.dictionaries.find? (fun d => d.Lang == lang)

/-- `Dictionary.Get`: the dictionary's own entry, else (when this is not the
default-language dictionary) the default dictionary's entry, else the key
itself.  The recursive call `defaultDict.Get(key)` of the Go code is inlined
one level: the dictionary returned by `GetDictionary` for the default language
has `Lang` equal to the default language, so its own fallback branch is
vacuous and its `Get` is a plain map lookup defaulting to the key. -/
def Dictionary.Get (d : Dictionary) (reg : Registry) (key : List Char) : List Char :=
  match lookupA d.Translations key with
  | some v => v
  | none =>
    if d.Lang ≠ reg.currentLang then
      match GetDictionary reg reg.currentLang with
      | some dd =>
        if dd ≠ d then
          match lookupA dd.Translations key with
          | some v => v
          | none => key
        else key
      | none => key
    else key

/-- The placeholder-substitution loop shared by `T` and `F`: for each argument
in index order, `template = strings.ReplaceAll(template, "{i}", arg)`. -/
def substArgsFrom : List Char → List (List Char) → Nat → List Char
  | t, [], _ => t
  | t, a :: rest, i => substArgsFrom (replaceAll t (placeholder i) a) rest (i + 1)

def substArgs (t : List Char) (args : List (List Char)) : List Char :=
  substArgsFrom t args 0

/-- `T`: translate by exact key, with the two branches of the Go code (locale
dictionary when registered, otherwise the default dictionary) and the
not-found sentinel filter, then positional substitution. -/
def T (reg : Registry) (key : List Char) (args : List (List Char))
    (locale : List Char) : List Char :=
  let template :=
    match GetDictionary reg locale with
    | some dict =>
      let tr := dict.Get reg key
      if tr ≠ [] ∧ tr ≠ key then tr else key
    | none =>
      match GetDictionary reg reg.currentLang with
      | some defaultDict =>
        let tr := defaultDict.Get reg key
        if tr ≠ [] ∧ tr ≠ key then tr else key
      | none => key
  substArgs template args

/-- `F`: derive the key and canonical template from the format string, look up
like `T`, fall back to the normalized template, then substitute. -/
def F (reg : Registry) (format : List Char) (args : List (List Char))
    (locale : List Char) : List Char :=
  let key := slugify format
  let normalizedTemplate := (normalize format).1
  let template :=
    match GetDictionary reg locale with
    | some dict =>
      let tr := dict.Get reg key
      if tr ≠ [] ∧ tr ≠ key then tr else normalizedTemplate
    | none =>
      match GetDictionary reg reg.currentLang with
      | some defaultDict =>
        let tr := defaultDict.Get reg key
        if tr ≠ [] ∧ tr ≠ key then tr else normalizedTemplate
      | none => normalizedTemplate
  substArgs template args

/-- The second lookup block of `S` (Go's second `if` over the default
dictionary followed by `return text`), named so the proofs can treat it as a
unit.  The bound `tr` of the Go code is inlined — `Get` is pure. -/
def Ssecond (reg : Registry) (key text : List Char) : List Char :=
  match GetDictionary reg reg.currentLang with
  | some defaultDict =>
    if defaultDict.Get reg key ≠ [] ∧ defaultDict.Get reg key ≠ key then
      defaultDict.Get reg key
    else text
  | none => text

/-- `S`: translate static text; two successive lookups (locale dictionary then
default dictionary), falling back to the original untouched text. -/
def S (reg : Registry) (text : List Char) (locale : List Char) : List Char :=
  let key := slugify text
  match GetDictionary reg locale with
  | some dict =>
    if dict.Get reg key ≠ [] ∧ dict.Get reg key ≠ key then dict.Get reg key
    else Ssecond reg key text
  | none => Ssecond reg key text

/-- The ICU plural marker substring `"{count, plural"`. -/
def pluralMarker : List Char := '{' :: "count, plural".data

/-- The literal token `"{count}"` of the last-resort substitution. -/
def countToken : List Char := '{' :: ("count".data ++ ['}'])

/-- The plural-resolution tail of `P` on an already-resolved template: ICU
marker test, locale-category extraction, `other` retry guarded by
`form != "other"`, last-resort literal `{count}` substitution.  The Go locals
`form`, `result` are inlined — all calls are pure. -/
def pluralResolve (template : List Char) (count : Int) (locale : List Char) : List Char :=
  if containsSeq template pluralMarker then
    if extractPluralForm template (determinePluralForm locale count) count ≠ [] then
      extractPluralForm template (determinePluralForm locale count) count
    else if determinePluralForm locale count ≠ "other".data then
      if extractPluralForm template "other".data count ≠ [] then
        extractPluralForm template "other".data count
      else replaceAll template countToken (intToChars count)
    else replaceAll template countToken (intToChars count)
  else replaceAll template countToken (intToChars count)

/-- `P`: pluralization — raw template lookup (locale dictionary, else default
dictionary, else the literal key), then plural resolution. -/
def P (reg : Registry) (key : List Char) (count : Int)
    (locale : List Char) : List Char :=
  let template :=
    match GetDictionary reg locale with
    | some dict => dict.Get reg key
    | none =>
      match GetDictionary reg reg.currentLang with
      | some defaultDict => defaultDict.Get reg key
      | none => key
  pluralResolve template count locale

/-- First placeholder index (drawn from the argument list) matching at the head
of `s` — helper for simultaneous substitution. -/
def findPh (args : List (List Char)) (s : List Char) : Option Nat :=
  (List.range args.length).find? (fun i => startsWith s (placeholder i))

/-- Simultaneous positional substitution, with fuel: scan left to right; at a
placeholder `{i}` with `i < args.length` emit the i-th argument and continue
after the placeholder, never rescanning emitted text.  Fuel `s.length`
suffices since every step consumes at least one character of `s`. -/
def simulSubstFuel : Nat → List (List Char) → List Char → List Char
  | 0, _, s => s
  | fuel + 1, args, s =>
    match s with
    | [] => []
    | c :: cs =>
      match findPh args (c :: cs) with
      | some i =>
        args.getD i [] ++ simulSubstFuel fuel args ((c :: cs).drop (placeholder i).length)
      | none => c :: simulSubstFuel fuel args cs

/-- Modelled from the spec: "a single simultaneous substitution of all
indices" (claim C2's right-hand side). -/
def simulSubst (args : List (List Char)) (s : List Char) : List Char :=
  simulSubstFuel s.length args s

/-- A dictionary binding counts as found only when present, non-empty and
different from the key (the not-found sentinel convention of §4.5). -/
def lookupSentinel (d : Dictionary) (key : List Char) : Option (List Char) :=
  match lookupA d.Translations key with
  | some v => if v ≠ [] ∧ v ≠ key then some v else none
  | none => none

/-- Modelled from the spec: the "failing that" stage of claim C8 — the
default-language dictionary's sentinel-found translation, else the original
text. -/
def SSpecDefault (reg : Registry) (key text : List Char) : List Char :=
  match (GetDictionary reg reg.currentLang).bind (fun d => lookupSentinel d key) with
  | some v => v
  | none => text

/-- Modelled from the spec: the behaviour claim C8 ascribes to `S` — return
the translation when the derived key is found (sentinel convention) in the
locale dictionary, failing that in the default-language dictionary, otherwise
the original untouched text. -/
def SSpec (reg : Registry) (text locale : List Char) : List Char :=
  let key := slugify text
  match (GetDictionary reg locale).bind (fun d => lookupSentinel d key) with
  | some v => v
  | none => SSpecDefault reg key text

/-- Modelled from the spec: claim C4's raw-template lookup — "locale
dictionary, else default dictionary, else the literal key". -/
def rawTemplateClaim (reg : Registry) (key locale : List Char) : List Char :=
  match (GetDictionary reg locale).bind (fun d => lookupA d.Translations key) with
  | some v => v
  | none =>
    match (GetDictionary reg reg.currentLang).bind (fun d => lookupA d.Translations key) with
    | some v => v
    | none => key

/-- Modelled from the spec: the plural-resolution policy claim C4 describes —
try the locale-selected category, retry with `other` when that extraction
fails, and when both fail (or the marker is absent) substitute `{count}`
literally in the raw template. -/
def pluralResolveClaim (template : List Char) (count : Int)
    (locale : List Char) : List Char :=
  if containsSeq template pluralMarker then
    if extractPluralForm template (determinePluralForm locale count) count ≠ [] then
      extractPluralForm template (determinePluralForm locale count) count
    else if extractPluralForm template "other".data count ≠ [] then
      extractPluralForm template "other".data count
    else replaceAll template countToken (intToChars count)
  else replaceAll template countToken (intToChars count)

/-- Modelled from the spec: claim C4's description of `P` — the three-stage
raw-template lookup followed by the plural-resolution policy. -/
def PSpec (reg : Registry) (key : List Char) (count : Int)
    (locale : List Char) : List Char :=
  pluralResolveClaim (rawTemplateClaim reg key locale) count locale

/-- Modelled from the spec: the template-resolution rule claim C1 ascribes to
`T` — look the key up in the locale's dictionary; when the value is absent
**or equal to the key itself**, retry in the default-language dictionary; when
still absent, the key itself. -/
def TresolveClaimC1 (reg : Registry) (key locale : List Char) : List Char :=
  let retryDefault :=
    match (GetDictionary reg reg.currentLang).bind (fun d => lookupA d.Translations key) with
    | some w => w
    | none => key
  match (GetDictionary reg locale).bind (fun d => lookupA d.Translations key) with
  | some v => if v ≠ key then v else retryDefault
  | none => retryDefault

/-! Concrete registry fixtures used by the closed theorems below (the English
and French dictionaries of the test suite, boiled down to the entries the
claims exercise). -/

/-- English dictionary fixture (the default language of the tests). -/
def enDict : Dictionary :=
  ⟨"en".data,
    [("hello-0".data, 'H' :: "ello ".data ++ placeholder 0),
      ("goodbye".data, "Goodbye".data)]⟩

/-- French dictionary fixture: has `hello-0` but not `goodbye`. -/
def frDict : Dictionary :=
  ⟨"fr".data, [("hello-0".data, ('B' :: "onjour ".data ++ placeholder 0))]⟩

/-- A registry with the two fixture dictionaries, default language `en`. -/
def reg1 : Registry := ⟨[enDict, frDict], "en".data⟩

/-- The empty registry (no dictionaries loaded), default language `en`. -/
def regEmpty : Registry := ⟨[], "en".data⟩

/-- Registry for the C1 counterexample: the `fr` dictionary maps the key `k`
to the key string itself, while the default `en` dictionary maps it to
`Hello`. -/
def regC1 : Registry :=
  ⟨[⟨"fr".data, [("k".data, "k".data)]⟩, ⟨"en".data, [("k".data, "Hello".data)]⟩],
    "en".data⟩

/-- The zero-category ICU plural template of the spec's pluralization test. -/
def itemCountTemplate : List Char :=
  pluralMarker ++ (", zero ".data ++ '{' :: "no items".data ++ '}' :: " one ".data ++
    '{' :: "# item".data ++ '}' :: " other ".data ++ '{' :: "# items".data ++ ['}', '}'])

/-- Registry holding the plural template under the key `item-count`. -/
def regPlural : Registry :=
  ⟨[⟨"en".data, [("item-count".data, itemCountTemplate)]⟩], "en".data⟩

/-- The two-category ICU template of the spec's `extractPluralForm` example. -/
def icuTemplate : List Char :=
  pluralMarker ++ (", one ".data ++ '{' :: "# item".data ++ '}' :: " other ".data ++
    '{' :: "# items".data ++ ['}', '}'])

/-- The invariant of every piece assembled by `slugify`'s main loop: non-empty,
characters in `[a-z0-9-]`, no double dash, and no leading or trailing dash. -/
def PieceGood (q : List Char) : Prop :=
  q ≠ [] ∧ (∀ x ∈ q, keepAlnum x = true ∨ x = '-') ∧
    containsSeq q ['-', '-'] = false ∧
    (∀ a, q.head? = some a → a ≠ '-') ∧
    (∀ a, q.getLast? = some a → a ≠ '-')

/-! ## Lemmas about the embedded string primitives -/

theorem startsWith_nil_left {p : List Char} (hp : p ≠ []) : startsWith [] p = false := by
  cases p with
  | nil => exact absurd rfl hp
  | cons c cs => rfl

theorem startsWith_refl (p : List Char) : startsWith p p = true := by
  induction p with
  | nil => rfl
  | cons c cs ih => simp [startsWith, ih]

theorem replaceAllFuel_nil_input (f : Nat) (p r : List Char) (hp : p ≠ []) :
    replaceAllFuel f [] p r = [] := by
  cases f with
  | zero => rfl
  | succ n => simp [replaceAllFuel, hp, startsWith_nil_left hp]

theorem replaceAllFuel_congr (p r : List Char) (hp : p ≠ []) :
    ∀ f₁ f₂ s, s.length ≤ f₁ → s.length ≤ f₂ →
      replaceAllFuel f₁ s p r = replaceAllFuel f₂ s p r := by
  intro f₁
  induction f₁ with
  | zero =>
    intro f₂ s h1 _
    have hs : s = [] := List.length_eq_zero.mp (Nat.le_zero.mp h1)
    subst hs
    rw [replaceAllFuel_nil_input _ _ _ hp, replaceAllFuel_nil_input _ _ _ hp]
  | succ n ih =>
    intro f₂ s h1 h2
    cases s with
    | nil => rw [replaceAllFuel_nil_input _ _ _ hp, replaceAllFuel_nil_input _ _ _ hp]
    | cons c cs =>
      have hplen : 1 ≤ p.length := List.length_pos.mpr hp
      cases f₂ with
      | zero => simp at h2
      | succ m =>
        simp only [replaceAllFuel, if_neg hp]
        by_cases hsw : startsWith (c :: cs) p = true
        · rw [if_pos hsw, if_pos hsw]
          have hdl : ((c :: cs).drop p.length).length ≤ n := by
            simp only [List.length_drop, List.length_cons] at *
            omega
          have hdm : ((c :: cs).drop p.length).length ≤ m := by
            simp only [List.length_drop, List.length_cons] at *
            omega
          rw [ih m _ hdl hdm]
        · rw [if_neg hsw, if_neg hsw]
          have hl : cs.length ≤ n := by simp at h1; omega
          have hm : cs.length ≤ m := by simp at h2; omega
          rw [ih m cs hl hm]

theorem replaceAll_fuel_eq {f : Nat} {s p r : List Char} (hp : p ≠ [])
    (hf : s.length ≤ f) : replaceAllFuel f s p r = replaceAll s p r :=
  replaceAllFuel_congr p r hp f s.length s hf le_rfl

theorem replaceAll_nil (p r : List Char) : replaceAll [] p r = [] := rfl

theorem replaceAll_pos {s p : List Char} (r : List Char) (hp : p ≠ [])
    (h : startsWith s p = true) :
    replaceAll s p r = r ++ replaceAll (s.drop p.length) p r := by
  cases s with
  | nil => rw [startsWith_nil_left hp] at h; exact Bool.noConfusion h
  | cons c cs =>
    have hplen : 1 ≤ p.length := List.length_pos.mpr hp
    show replaceAllFuel (c :: cs).length _ p r = _
    simp only [List.length_cons, replaceAllFuel, if_neg hp, if_pos h]
    congr 1
    exact replaceAll_fuel_eq hp (by simp [List.length_drop]; omega)

theorem replaceAll_neg {c : Char} {cs p : List Char} (r : List Char) (hp : p ≠ [])
    (h : startsWith (c :: cs) p = false) :
    replaceAll (c :: cs) p r = c :: replaceAll cs p r := by
  show replaceAllFuel (c :: cs).length _ p r = _
  simp only [List.length_cons, replaceAllFuel, if_neg hp, h]
  rfl

theorem replaceAll_self {p : List Char} (r : List Char) (hp : p ≠ []) :
    replaceAll p p r = r := by
  rw [replaceAll_pos r hp (startsWith_refl p), List.drop_length, replaceAll_nil,
    List.append_nil]

theorem placeholder_ne_nil (i : Nat) : placeholder i ≠ [] := by
  simp [placeholder]

/-! ## Claim C2: positional substitution -/

/-- C2, counterexample.  With the empty registry, template key `{0}` and
arguments stringifying to `{1}` and `X`, the code produces `X`: the text
`{1}` introduced by substituting argument 0 is itself rewritten when index 1
is processed.  A single simultaneous substitution of all indices would
produce `{1}`, so the claimed equality with simultaneous substitution fails
at this input. -/
theorem C2_counterexample :
    T regEmpty (placeholder 0) [placeholder 1, "X".data] "en".data = "X".data ∧
      simulSubst [placeholder 1, "X".data] (placeholder 0) = placeholder 1 ∧
      "X".data ≠ placeholder 1 := by
  refine ⟨by decide, by decide, by decide⟩

/-- C2, amended: `T` (and `F`) substitute `{i}` by the stringified i-th
argument sequentially in increasing index order via literal replacement, so
text introduced by an earlier substitution IS rewritten by later indices: with
template `{0}` and first argument stringifying to `{1}`, the final result is
exactly the second argument's string, whatever it is and whatever the locale.
The result is the left-to-right sequential substitution, not a simultaneous
one. -/
theorem C2_amended (a locale : List Char) :
    T regEmpty (placeholder 0) [placeholder 1, a] locale = a := by
  have h0 : GetDictionary regEmpty locale = none := rfl
  have h1 : GetDictionary regEmpty regEmpty.currentLang = none := rfl
  simp only [T, h0, h1]
  show substArgs (placeholder 0) [placeholder 1, a] = a
  simp only [substArgs, substArgsFrom]
  rw [replaceAll_self _ (placeholder_ne_nil 0), replaceAll_self _ (placeholder_ne_nil 1)]

/-! ## Claims C6 and C10: the plural rule table -/

/-- C6: `determinePluralForm` implements exactly the simplified family table —
Slavic locales map 0 to zero, 1 to one, 2–4 to few and everything else to
many; Arabic maps 0 to zero, 1 to one, 2 to two, 3–10 to few, 11–99 to many
and everything else to other; locales outside the table use the default
family rule; and the five concrete values of the spec hold. -/
theorem C6_pluralRuleTable :
    (∀ locale count,
        (locale = "ru".data ∨ locale = "uk".data ∨ locale = "be".data ∨
          locale = "pl".data) →
        determinePluralForm locale count =
          (if count = 0 then "zero".data
           else if count = 1 then "one".data
           else if 2 ≤ count ∧ count ≤ 4 then "few".data
           else "many".data)) ∧
    (∀ count : Int,
        determinePluralForm "ar".data count =
          (if count = 0 then "zero".data
           else if count = 1 then "one".data
           else if count = 2 then "two".data
           else if 3 ≤ count ∧ count ≤ 10 then "few".data
           else if 11 ≤ count ∧ count ≤ 99 then "many".data
           else "other".data)) ∧
    (∀ locale count,
        locale ∉ ["en".data, "de".data, "it".data, "es".data, "pt".data,
          "fr".data, "ru".data, "uk".data, "be".data, "pl".data, "ar".data] →
        determinePluralForm locale count =
          (if count = 0 then "zero".data
           else if count = 1 then "one".data
           else "other".data)) ∧
    determinePluralForm "ru".data 2 = "few".data ∧
    determinePluralForm "ru".data 5 = "many".data ∧
    determinePluralForm "ar".data 2 = "two".data ∧
    determinePluralForm "ar".data 100 = "other".data ∧
    determinePluralForm "unknown".data 1 = "one".data := by
  refine ⟨?_, ?_, ?_, by decide, by decide, by decide, by decide, by decide⟩
  · intro locale count h
    rcases h with h | h | h | h <;> subst h <;>
      simp only [determinePluralForm] <;>
      rw [if_neg (by decide), if_neg (by decide)] <;>
      first
      | rw [if_pos (by decide)]
      | (rw [if_neg (by decide), if_pos (by decide)])
  · intro count
    simp only [determinePluralForm]
    rw [if_neg (by decide), if_neg (by decide), if_neg (by decide),
      if_neg (by decide), if_pos (by decide)]
  · intro locale count h
    simp only [List.mem_cons, List.not_mem_nil, or_false, not_or] at h
    obtain ⟨h1, h2, h3, h4, h5, h6, h7, h8, h9, h10, h11⟩ := h
    simp only [determinePluralForm]
    rw [if_neg (by simp [h1, h2, h3, h4, h5]), if_neg h6,
      if_neg (by simp [h7, h8, h9]), if_neg h10, if_neg h11]

/-- C6, witness: the general conjuncts applied at `uk`, count 3 (Slavic few)
and at the unlisted locale `xx`, count 7 (default rule, other). -/
theorem C6_pluralRuleTable_witness :
    determinePluralForm "uk".data 3 = "few".data ∧
      determinePluralForm "xx".data 7 = "other".data := by
  constructor
  · rw [C6_pluralRuleTable.1 "uk".data 3 (Or.inr (Or.inl rfl))]; decide
  · rw [C6_pluralRuleTable.2.2.1 "xx".data 7 (by decide)]; decide

set_option maxHeartbeats 1000000 in
/-- C10: for every locale string and every integer count — negative counts
included — `determinePluralForm` returns one of the six plural categories;
a negative count falls through every equality and range test, yielding `many`
for the Slavic locales and `other` for every other locale. -/
theorem C10_totalAndNegative :
    (∀ locale count, determinePluralForm locale count ∈
        ["zero".data, "one".data, "two".data, "few".data, "many".data,
          "other".data]) ∧
    (∀ locale count, count < 0 →
        ((locale = "ru".data ∨ locale = "uk".data ∨ locale = "be".data ∨
            locale = "pl".data) →
          determinePluralForm locale count = "many".data) ∧
        (locale ∉ ["ru".data, "uk".data, "be".data, "pl".data] →
          determinePluralForm locale count = "other".data)) := by
  constructor
  · intro locale count
    simp only [determinePluralForm]
    split_ifs <;> decide
  · intro locale count hneg
    constructor
    · intro h
      rcases h with h | h | h | h <;> subst h <;>
        simp only [determinePluralForm] <;>
        rw [if_neg (by decide), if_neg (by decide)] <;>
        first
        | (rw [if_pos (by decide), if_neg (by omega), if_neg (by omega),
            if_neg (by omega)])
        | (rw [if_neg (by decide), if_pos (by decide), if_neg (by omega),
            if_neg (by omega), if_neg (by omega)])
    · intro h
      simp only [List.mem_cons, List.not_mem_nil, or_false, not_or] at h
      obtain ⟨h7, h8, h9, h10⟩ := h
      simp only [determinePluralForm]
      split_ifs <;> first | rfl | (exfalso; omega) | tauto

/-- C10, witness: the theorem applied at a Slavic locale and at `en` with a
negative count. -/
theorem C10_totalAndNegative_witness :
    determinePluralForm "ru".data (-3) = "many".data ∧
      determinePluralForm "en".data (-3) = "other".data :=
  ⟨(C10_totalAndNegative.2 "ru".data (-3) (by decide)).1 (Or.inl rfl),
    (C10_totalAndNegative.2 "en".data (-3) (by decide)).2 (by decide)⟩

/-! ## Claim C5: plural sub-template extraction -/

theorem indexOfSeq_eq_none {s p : List Char} (h : containsSeq s p = false) :
    indexOfSeq s p = none := by
  induction s with
  | nil =>
    simp only [containsSeq] at h
    simp [indexOfSeq, h]
  | cons c cs ih =>
    simp only [containsSeq, Bool.or_eq_false_iff] at h
    obtain ⟨h1, h2⟩ := h
    simp [indexOfSeq, h1, ih h2]

/-- The Go brace scan computes the closing index found by the `Option`-valued
scan (shifted by the running index), and its zero initialisation otherwise. -/
theorem scanEnd_eq (cs : List Char) : ∀ depth i,
    scanEnd cs depth i =
      (match findClose? cs depth with
       | some j => j + i
       | none => 0) := by
  induction cs with
  | nil => intro d i; rfl
  | cons c cs ih =>
    intro d i
    by_cases h1 : c = '{'
    · rw [scanEnd, findClose?, if_pos h1, if_pos h1, ih]
      cases hf : findClose? cs (d + 1) with
      | none => rfl
      | some j => show j + (i + 1) = j + 1 + i; omega
    · by_cases h2 : c = '}'
      · by_cases h3 : d = 1
        · rw [scanEnd, findClose?, if_neg h1, if_neg h1, if_pos h2, if_pos h2,
            if_pos h3, if_pos h3]
          show i = 0 + i
          omega
        · rw [scanEnd, findClose?, if_neg h1, if_neg h1, if_pos h2, if_pos h2,
            if_neg h3, if_neg h3, ih]
          cases hf : findClose? cs (d - 1) with
          | none => rfl
          | some j => show j + (i + 1) = j + 1 + i; omega
      · rw [scanEnd, findClose?, if_neg h1, if_neg h1, if_neg h2, if_neg h2, ih]
        cases hf : findClose? cs d with
        | none => rfl
        | some j => show j + (i + 1) = j + 1 + i; omega

/-- The code's extraction equals the spec-modelled extraction composed with
`#`-substitution and trimming (both failure modes collapse to the empty
sentinel; a category whose sub-template is empty also yields the sentinel on
both sides, the code through its `end == 0` zero-initialisation check). -/
theorem extractPluralForm_eq_spec (template form : List Char) (count : Int) :
    extractPluralForm template form count =
      (match extractPluralFormSpec template form with
       | none => []
       | some sub => trimSpace (replaceAll sub ['#'] (intToChars count))) := by
  simp only [extractPluralForm, extractPluralFormSpec]
  cases hidx : indexOfSeq template (form ++ [' ', '{']) with
  | none => rfl
  | some idx =>
    simp only []
    rw [scanEnd_eq]
    cases hf : findClose? (template.drop (idx + (form ++ [' ', '{']).length)) 1 with
    | none => simp
    | some j =>
      simp only []
      by_cases hj : j = 0
      · subst hj
        rw [if_pos rfl, List.take_zero, replaceAll_nil]
        rfl
      · rw [if_neg (show ¬(j + 0 = 0) by omega)]
        rfl

/-- C5: `extractPluralForm` extracts the brace-balanced sub-template after the
first `"<category> {"`, substitutes the decimal count for `#` and trims — in
particular yielding `"1 item"` on the spec's example — and it returns the
empty-string not-found sentinel (no panic is possible) both when the category
pattern is absent and when the depth scan finds no matching close brace. -/
theorem C5_extractPluralForm :
    extractPluralForm icuTemplate "one".data 1 = "1 item".data ∧
    (∀ template form count, extractPluralForm template form count =
      (match extractPluralFormSpec template form with
       | none => []
       | some sub => trimSpace (replaceAll sub ['#'] (intToChars count)))) ∧
    (∀ template form (count : Int), containsSeq template (form ++ [' ', '{']) = false →
      extractPluralForm template form count = []) ∧
    (∀ template form (count : Int) idx,
      indexOfSeq template (form ++ [' ', '{']) = some idx →
      findClose? (template.drop (idx + (form ++ [' ', '{']).length)) 1 = none →
      extractPluralForm template form count = []) := by
  refine ⟨by decide, extractPluralForm_eq_spec, ?_, ?_⟩
  · intro t f c h
    simp [extractPluralForm, indexOfSeq_eq_none h]
  · intro t f c idx hidx hclose
    rw [extractPluralForm_eq_spec]
    have hspec : extractPluralFormSpec t f = none := by
      simp only [extractPluralFormSpec, hidx]
      rw [hclose]
    rw [hspec]

/-- C5, witness: the sentinel conjunct applied to a template without plural
syntax (the test suite's "Simple template with `{count}`" case) and the
unbalanced-template conjunct applied to a template whose `one {` group is
never closed. -/
theorem C5_extractPluralForm_witness :
    extractPluralForm "Simple template with count".data "one".data 5 = [] ∧
      extractPluralForm ("one ".data ++ ['{'] ++ " unclosed".data) "one".data 1 = [] :=
  ⟨C5_extractPluralForm.2.2.1 "Simple template with count".data "one".data 5 (by decide),
    C5_extractPluralForm.2.2.2 ("one ".data ++ ['{'] ++ " unclosed".data) "one".data 1 0
      (by decide) (by decide)⟩

/-! ## Lemmas about the registry and `Dictionary.Get` -/

theorem GetDictionary_lang {reg : Registry} {lang : List Char} {d : Dictionary}
    (h : GetDictionary reg lang = some d) : d.Lang = lang := by
  have h2 := List.find?_some h
  simpa using h2

theorem GetDictionary_mem {reg : Registry} {lang : List Char} {d : Dictionary}
    (h : GetDictionary reg lang = some d) : d ∈ reg.dictionaries :=
  List.mem_of_find?_eq_some h

theorem Get_eq_of_lookup {d : Dictionary} {reg : Registry} {key v : List Char}
    (h : lookupA d.Translations key = some v) : d.Get reg key = v := by
  simp only [Dictionary.Get, h]

theorem Get_self_default {d : Dictionary} {reg : Registry} {key : List Char}
    (hl : d.Lang = reg.currentLang) (hk : lookupA d.Translations key = none) :
    d.Get reg key = key := by
  simp [Dictionary.Get, hk, hl]

theorem Get_fallback_none {d : Dictionary} {reg : Registry} {key : List Char}
    (hne : d.Lang ≠ reg.currentLang) (hk : lookupA d.Translations key = none)
    (hD : GetDictionary reg reg.currentLang = none) : d.Get reg key = key := by
  simp only [Dictionary.Get, hk, if_pos hne, hD]

theorem Get_fallback_found {d dd : Dictionary} {reg : Registry} {key w : List Char}
    (hne : d.Lang ≠ reg.currentLang) (hk : lookupA d.Translations key = none)
    (hD : GetDictionary reg reg.currentLang = some dd)
    (hw : lookupA dd.Translations key = some w) : d.Get reg key = w := by
  have hddd : dd ≠ d := by
    intro e
    exact hne (by rw [← e]; exact GetDictionary_lang hD)
  simp only [Dictionary.Get, hk, if_pos hne, hD, if_pos hddd, hw]

theorem Get_fallback_nf {d dd : Dictionary} {reg : Registry} {key : List Char}
    (hne : d.Lang ≠ reg.currentLang) (hk : lookupA d.Translations key = none)
    (hD : GetDictionary reg reg.currentLang = some dd)
    (hw : lookupA dd.Translations key = none) : d.Get reg key = key := by
  have hddd : dd ≠ d := by
    intro e
    exact hne (by rw [← e]; exact GetDictionary_lang hD)
  simp only [Dictionary.Get, hk, if_pos hne, hD, if_pos hddd, hw]

theorem Get_default_notfound {dd : Dictionary} {reg : Registry} {key : List Char}
    (hD : GetDictionary reg reg.currentLang = some dd)
    (hk : lookupA dd.Translations key = none) : dd.Get reg key = key :=
  Get_self_default (GetDictionary_lang hD) hk

/-! ## Claim C1: key lookup and default-language fallback in `T` -/

/-- C1, counterexample.  In the registry where the `fr` dictionary maps the
key `k` to the key string itself while the default `en` dictionary maps it to
`Hello`, `T("k")("fr")` returns `k`: the sentinel-valued entry is rejected but
the lookup is NOT retried in the default dictionary, whereas the claimed rule
(modelled by `TresolveClaimC1`) would return the default translation
`Hello`. -/
theorem C1_counterexample :
    T regC1 "k".data [] "fr".data = "k".data ∧
      TresolveClaimC1 regC1 "k".data "fr".data = "Hello".data ∧
      "k".data ≠ "Hello".data :=
  ⟨by decide, by decide, by decide⟩

/-- C1, amended: `T` looks the key up through the locale's dictionary when one
is registered — that lookup itself falls back to the default-language
dictionary when the key is **absent** — and through the default dictionary
directly when the locale has none; a lookup result that is empty or equal to
the key (the not-found sentinel) leaves the key itself as the template. In
particular, when the locale dictionary maps the key to the key string itself
or to the empty string, the key is used and the default dictionary is **not**
retried; the spec's fallback example `T("goodbye")("fr") = "Goodbye"` holds
because `goodbye` is absent from the registered `fr` dictionary.  The
conjuncts cover, in order: a non-sentinel hit in the locale dictionary; the
key absent from the locale dictionary with a non-sentinel default-dictionary
entry; the key-valued sentinel; the key absent everywhere; the empty-string
sentinel; a locale with no dictionary at all, resolved directly through a
non-sentinel default-dictionary entry; and the concrete spec example. -/
theorem C1_amended :
    (∀ reg key locale args d v,
        GetDictionary reg locale = some d →
        lookupA d.Translations key = some v → v ≠ [] → v ≠ key →
        T reg key args locale = substArgs v args) ∧
    (∀ reg key locale args d dd w,
        GetDictionary reg locale = some d →
        lookupA d.Translations key = none →
        locale ≠ reg.currentLang →
        GetDictionary reg reg.currentLang = some dd →
        lookupA dd.Translations key = some w → w ≠ [] → w ≠ key →
        T reg key args locale = substArgs w args) ∧
    (∀ reg key locale args d,
        GetDictionary reg locale = some d →
        lookupA d.Translations key = some key →
        T reg key args locale = substArgs key args) ∧
    (∀ reg key locale args,
        (∀ d, d ∈ reg.dictionaries → lookupA d.Translations key = none) →
        T reg key args locale = substArgs key args) ∧
    (∀ reg key locale args d,
        GetDictionary reg locale = some d →
        lookupA d.Translations key = some [] →
        T reg key args locale = substArgs key args) ∧
    (∀ reg key locale args dd w,
        GetDictionary reg locale = none →
        GetDictionary reg reg.currentLang = some dd →
        lookupA dd.Translations key = some w → w ≠ [] → w ≠ key →
        T reg key args locale = substArgs w args) ∧
    T reg1 "goodbye".data [] "fr".data = "Goodbye".data := by
  refine ⟨?_, ?_, ?_, ?_, ?_, ?_, by decide⟩
  · intro reg key locale args d v hd hv hne hnk
    simp only [T, hd, Get_eq_of_lookup hv, if_pos (And.intro hne hnk)]
  · intro reg key locale args d dd w hd hk hlocale hdd hw hne hnk
    have hlang : d.Lang = locale := GetDictionary_lang hd
    have hdlne : d.Lang ≠ reg.currentLang := by rw [hlang]; exact hlocale
    simp only [T, hd, Get_fallback_found hdlne hk hdd hw,
      if_pos (And.intro hne hnk)]
  · intro reg key locale args d hd hv
    simp only [T, hd, Get_eq_of_lookup hv]
    rw [if_neg (by simp)]
  · intro reg key locale args h
    cases hL : GetDictionary reg locale with
    | some d =>
      have hk := h d (GetDictionary_mem hL)
      have hlang := GetDictionary_lang hL
      by_cases hc : locale = reg.currentLang
      · simp only [T, hL, Get_self_default (hlang.trans hc) hk]
        rw [if_neg (by simp)]
      · have hdne : d.Lang ≠ reg.currentLang := by rw [hlang]; exact hc
        cases hD : GetDictionary reg reg.currentLang with
        | none =>
          simp only [T, hL, Get_fallback_none hdne hk hD]
          rw [if_neg (by simp)]
        | some dd =>
          simp only [T, hL, Get_fallback_nf hdne hk hD (h dd (GetDictionary_mem hD))]
          rw [if_neg (by simp)]
    | none =>
      cases hD : GetDictionary reg reg.currentLang with
      | none => simp only [T, hL, hD]
      | some dd =>
        simp only [T, hL, hD,
          Get_default_notfound hD (h dd (GetDictionary_mem hD))]
        rw [if_neg (by simp)]
  · intro reg key locale args d hd hv
    simp only [T, hd, Get_eq_of_lookup hv]
    rw [if_neg (by simp)]
  · intro reg key locale args dd w hL hD hw hne hnk
    simp only [T, hL, hD, Get_eq_of_lookup hw, if_pos (And.intro hne hnk)]

/-- C1, witness: the genuine-fallback conjunct applied to the test fixture —
`goodbye` is absent from the registered `fr` dictionary and `en` (the default)
maps it to `Goodbye`. -/
theorem C1_amended_witness :
    T reg1 "goodbye".data [] "fr".data = substArgs "Goodbye".data [] :=
  C1_amended.2.1 reg1 "goodbye".data "fr".data [] frDict enDict "Goodbye".data
    (by decide) (by decide) (by decide) (by decide) (by decide) (by decide) (by decide)

/-! ## Claim C4: pluralization policy of `P` -/

/-- The raw-template lookup performed by `P` (locale dictionary with its
internal fallback, else default dictionary, else the literal key) equals the
claim's three-stage rule. -/
theorem P_template_eq (reg : Registry) (key locale : List Char) :
    (match GetDictionary reg locale with
     | some dict => dict.Get reg key
     | none =>
       match GetDictionary reg reg.currentLang with
       | some defaultDict => defaultDict.Get reg key
       | none => key) = rawTemplateClaim reg key locale := by
  cases hL : GetDictionary reg locale with
  | none =>
    simp only [rawTemplateClaim, hL, Option.none_bind]
    cases hD : GetDictionary reg reg.currentLang with
    | none => rfl
    | some dd =>
      simp only [hD, Option.some_bind]
      cases hk : lookupA dd.Translations key with
      | some v => simp only [Get_eq_of_lookup hk, hk]
      | none => simp only [Get_default_notfound hD hk, hk]
  | some d =>
    have hlang := GetDictionary_lang hL
    simp only [rawTemplateClaim, hL, Option.some_bind]
    cases hk : lookupA d.Translations key with
    | some v => simp only [Get_eq_of_lookup hk, hk]
    | none =>
      simp only [hk]
      by_cases hc : locale = reg.currentLang
      · have hDL : GetDictionary reg reg.currentLang = some d := by
          rw [← hc]; exact hL
        simp only [Get_self_default (hlang.trans hc) hk, hDL, Option.some_bind, hk]
      · have hdne : d.Lang ≠ reg.currentLang := by rw [hlang]; exact hc
        cases hD : GetDictionary reg reg.currentLang with
        | none => simp only [Get_fallback_none hdne hk hD, hD, Option.none_bind]
        | some dd =>
          simp only [hD, Option.some_bind]
          cases hk2 : lookupA dd.Translations key with
          | some w => simp only [Get_fallback_found hdne hk hD hk2, hk2]
          | none => simp only [Get_fallback_nf hdne hk hD hk2, hk2]

/-- C4: `P` resolves the raw template through the three-stage lookup, then —
when the template carries the ICU plural marker — tries extraction with the
locale-selected category, retries with `other` on failure, and falls back to
literal `{count}` substitution when both extractions fail or when the marker
is absent; and on the zero-category template the spec's example
`P(key, 0)("en") = "no items"` holds. -/
theorem pluralResolve_eq_claim (t : List Char) (count : Int) (locale : List Char) :
    pluralResolve t count locale = pluralResolveClaim t count locale := by
  unfold pluralResolve pluralResolveClaim
  by_cases hm : containsSeq t pluralMarker = true
  · rw [if_pos hm, if_pos hm]
    by_cases hr : extractPluralForm t (determinePluralForm locale count) count = []
    · have hne1 : ¬(extractPluralForm t (determinePluralForm locale count) count ≠ []) := by
        simp [hr]
      rw [if_neg hne1, if_neg hne1]
      by_cases hf : determinePluralForm locale count = "other".data
      · have hnf : ¬(determinePluralForm locale count ≠ "other".data) := by simp [hf]
        have he2 : extractPluralForm t "other".data count = [] := hf ▸ hr
        have hne2 : ¬(extractPluralForm t "other".data count ≠ []) := by simp [he2]
        rw [if_neg hnf, if_neg hne2]
      · rw [if_pos hf]
    · have hne1 : extractPluralForm t (determinePluralForm locale count) count ≠ [] := hr
      rw [if_pos hne1, if_pos hne1]
  · rw [if_neg hm, if_neg hm]

theorem C4_P_pluralization :
    (∀ reg key count locale, P reg key count locale = PSpec reg key count locale) ∧
      P regPlural "item-count".data 0 "en".data = "no items".data := by
  refine ⟨?_, by decide⟩
  intro reg key count locale
  show pluralResolve _ count locale = PSpec reg key count locale
  rw [PSpec, P_template_eq, pluralResolve_eq_claim]

/-! ## Claim C7: `F` round-trip when no dictionary has the derived key -/

/-- C7: when no registered dictionary contains the key derived from the format
string, `F(format, args...)` resolved at any locale returns exactly the
normalized template of `normalize(format)` with the positional substitution
applied to the stringified arguments. -/
theorem C7_F_roundTrip (reg : Registry) (format : List Char)
    (args : List (List Char)) (locale : List Char)
    (h : ∀ d, d ∈ reg.dictionaries → lookupA d.Translations (slugify format) = none) :
    F reg format args locale = substArgs (normalize format).1 args := by
  cases hL : GetDictionary reg locale with
  | none =>
    cases hD : GetDictionary reg reg.currentLang with
    | none => simp only [F, hL, hD]
    | some dd =>
      simp only [F, hL, hD,
        Get_default_notfound hD (h dd (GetDictionary_mem hD))]
      rw [if_neg (by simp)]
  | some d =>
    have hk := h d (GetDictionary_mem hL)
    have hlang := GetDictionary_lang hL
    by_cases hc : locale = reg.currentLang
    · simp only [F, hL, Get_self_default (hlang.trans hc) hk]
      rw [if_neg (by simp)]
    · have hdne : d.Lang ≠ reg.currentLang := by rw [hlang]; exact hc
      cases hD : GetDictionary reg reg.currentLang with
      | none =>
        simp only [F, hL, Get_fallback_none hdne hk hD]
        rw [if_neg (by simp)]
      | some dd =>
        simp only [F, hL, Get_fallback_nf hdne hk hD (h dd (GetDictionary_mem hD))]
        rw [if_neg (by simp)]

/-- C7, witness: the round-trip theorem applied to `F("Hello %s", "World")` in
the empty registry, evaluated: the normalized template `Hello {0}` substituted
with `World`. -/
theorem C7_F_roundTrip_witness :
    F regEmpty "Hello %s".data ["World".data] "fr".data = "Hello World".data :=
  (C7_F_roundTrip regEmpty "Hello %s".data ["World".data] "fr".data
      (fun d hd => absurd hd (List.not_mem_nil d))).trans (by decide)

/-! ## Claim C8: `S` falls back to the original text -/

/-- The second lookup of `S` (default dictionary, else the original text)
equals the sentinel-based default chain of the claim. -/
theorem Ssecond_eq_spec (reg : Registry) (key text : List Char) :
    Ssecond reg key text = SSpecDefault reg key text := by
  cases hd : GetDictionary reg reg.currentLang with
  | none => simp only [Ssecond, SSpecDefault, hd, Option.none_bind]
  | some dd =>
    simp only [Ssecond, SSpecDefault, hd, Option.some_bind]
    cases hk : lookupA dd.Translations key with
    | some v =>
      simp only [@Get_eq_of_lookup _ reg _ _ hk, lookupSentinel, hk]
      by_cases hv : v ≠ [] ∧ v ≠ key
      · rw [if_pos hv, if_pos hv]
      · rw [if_neg hv, if_neg hv]
    | none =>
      simp only [Get_default_notfound hd hk, lookupSentinel, hk]
      rw [if_neg (by simp)]

/-- C8: `S(text)` returns the dictionary translation whenever the derived key
is found — under the not-found sentinel convention: present, non-empty and
different from the key — in the locale dictionary or, failing that, in the
default-language dictionary; otherwise it returns the original untouched
input text, never the derived slug key.  Concretely,
`S("Unknown Text")("fr") = "Unknown Text"` in the fixture registry, where no
dictionary defines the derived key. -/
theorem C8_S_fallback :
    (∀ reg text locale, S reg text locale = SSpec reg text locale) ∧
      S reg1 "Unknown Text".data "fr".data = "Unknown Text".data := by
  refine ⟨?_, by decide⟩
  intro reg text locale
  cases hL : GetDictionary reg locale with
  | none =>
    simp only [S, SSpec, hL, Option.none_bind]
    exact Ssecond_eq_spec reg (slugify text) text
  | some d =>
    have hlang := GetDictionary_lang hL
    simp only [S, SSpec, hL, Option.some_bind]
    cases hk : lookupA d.Translations (slugify text) with
    | some v =>
      simp only [@Get_eq_of_lookup _ reg _ _ hk, lookupSentinel, hk]
      by_cases hv : v ≠ [] ∧ v ≠ slugify text
      · rw [if_pos hv, if_pos hv]
      · rw [if_neg hv, if_neg hv]
        exact Ssecond_eq_spec reg (slugify text) text
    | none =>
      simp only [lookupSentinel, hk]
      by_cases hc : locale = reg.currentLang
      · rw [Get_self_default (hlang.trans hc) hk, if_neg (by simp)]
        exact Ssecond_eq_spec reg (slugify text) text
      · have hdne : d.Lang ≠ reg.currentLang := by rw [hlang]; exact hc
        cases hD : GetDictionary reg reg.currentLang with
        | none =>
          rw [Get_fallback_none hdne hk hD, if_neg (by simp)]
          exact Ssecond_eq_spec reg (slugify text) text
        | some dd =>
          cases hk2 : lookupA dd.Translations (slugify text) with
          | none =>
            rw [Get_fallback_nf hdne hk hD hk2, if_neg (by simp)]
            exact Ssecond_eq_spec reg (slugify text) text
          | some w =>
            rw [Get_fallback_found hdne hk hD hk2]
            by_cases hw : w ≠ [] ∧ w ≠ slugify text
            · rw [if_pos hw]
              simp only [SSpecDefault, hD, Option.some_bind, lookupSentinel, hk2,
                if_pos hw]
            · rw [if_neg hw, Ssecond_eq_spec reg (slugify text) text]

/-! ## String lemmas for the `slugify` development -/

theorem startsWith_single {s : List Char} {y : Char} :
    startsWith s [y] = true ↔ s.head? = some y := by
  cases s with
  | nil => simp [startsWith]
  | cons c cs => simp [startsWith]

theorem startsWith_pair {s : List Char} {x y : Char} :
    startsWith s [x, y] = true ↔ ∃ t, s = x :: y :: t := by
  cases s with
  | nil => simp [startsWith]
  | cons c cs =>
    cases cs with
    | nil => simp [startsWith]
    | cons c2 cs2 =>
      simp only [startsWith, Bool.and_eq_true, beq_iff_eq]
      constructor
      · rintro ⟨rfl, rfl, -⟩
        exact ⟨cs2, rfl⟩
      · rintro ⟨t, he⟩
        cases he
        exact ⟨rfl, rfl, trivial⟩

theorem startsWith_cons_pair {c : Char} {cs : List Char} {x y : Char} :
    startsWith (c :: cs) [x, y] = true ↔ c = x ∧ cs.head? = some y := by
  rw [show ([x, y] : List Char) = x :: [y] from rfl]
  show (c == x && startsWith cs [y]) = true ↔ _
  simp [startsWith_single]

theorem contains_pair_mem {s : List Char} {x y : Char}
    (h : containsSeq s [x, y] = true) : x ∈ s ∧ y ∈ s := by
  induction s with
  | nil => simp [containsSeq, startsWith] at h
  | cons c cs ih =>
    simp only [containsSeq, Bool.or_eq_true] at h
    rcases h with h | h
    · obtain ⟨t, he⟩ := startsWith_pair.mp h
      cases he
      exact ⟨List.mem_cons_self _ _, List.mem_cons_of_mem _ (List.mem_cons_self _ _)⟩
    · obtain ⟨hx, hy⟩ := ih h
      exact ⟨List.mem_cons_of_mem _ hx, List.mem_cons_of_mem _ hy⟩

theorem contains_map_pair {u : List Char} {f : Char → Char} {b b' : Char}
    (h : containsSeq (u.map f) [b, b'] = true) :
    ∃ x y, containsSeq u [x, y] = true ∧ f x = b ∧ f y = b' := by
  induction u with
  | nil => simp [containsSeq, startsWith] at h
  | cons a u' ih =>
    simp only [List.map_cons, containsSeq, Bool.or_eq_true] at h
    rcases h with h | h
    · obtain ⟨hfa, hh⟩ := startsWith_cons_pair.mp h
      cases u' with
      | nil => simp at hh
      | cons z u'' =>
        simp only [List.map_cons, List.head?_cons, Option.some.injEq] at hh
        refine ⟨a, z, ?_, hfa, hh⟩
        simp only [containsSeq, Bool.or_eq_true]
        exact Or.inl (startsWith_cons_pair.mpr ⟨rfl, rfl⟩)
    · obtain ⟨x, y, hc, hfx, hfy⟩ := ih h
      exact ⟨x, y, by simp only [containsSeq, Bool.or_eq_true]; exact Or.inr hc, hfx, hfy⟩

theorem contains_pair_append {a b : List Char} {x y : Char}
    (ha : containsSeq a [x, y] = false) (hb : containsSeq b [x, y] = false)
    (hbd : ¬(a.getLast? = some x ∧ b.head? = some y)) :
    containsSeq (a ++ b) [x, y] = false := by
  induction a with
  | nil => simpa using hb
  | cons c a' ih =>
    simp only [containsSeq, Bool.or_eq_false_iff] at ha
    obtain ⟨ha1, ha2⟩ := ha
    simp only [List.cons_append, containsSeq, Bool.or_eq_false_iff]
    constructor
    · rw [Bool.eq_false_iff]
      intro hsw
      obtain ⟨hcx, hh⟩ := startsWith_cons_pair.mp hsw
      cases a' with
      | nil =>
        have hh' : b.head? = some y := by simpa using hh
        exact hbd ⟨by simp [hcx], hh'⟩
      | cons d a'' =>
        have hd : d = y := by simpa using hh
        rw [Bool.eq_false_iff] at ha1
        exact ha1 (startsWith_cons_pair.mpr ⟨hcx, by simp [hd]⟩)
    · refine ih ha2 ?_
      intro ⟨hl, hh⟩
      cases a' with
      | nil => simp at hl
      | cons d a'' =>
        refine hbd ⟨?_, hh⟩
        rw [List.getLast?_cons_cons]
        exact hl

theorem replaceAll_single (s : List Char) (a b : Char) :
    replaceAll s [a] [b] = s.map (fun c => if c = a then b else c) := by
  induction s with
  | nil => rfl
  | cons c cs ih =>
    by_cases hc : c = a
    · subst hc
      rw [replaceAll_pos [b] (by simp) (by simp [startsWith])]
      have hdrop : (c :: cs).drop ([c] : List Char).length = cs := rfl
      rw [hdrop, ih]
      simp
    · rw [replaceAll_neg [b] (by simp) (by simp [startsWith, hc])]
      simp only [List.map_cons, if_neg hc]
      rw [ih]

/-! Lemmas about `replaceAll s [c, c] [c]` (one pass of the collapse loops). -/

theorem collapse_step_len {c : Char} : ∀ n (s : List Char), s.length ≤ n →
    (replaceAll s [c, c] [c]).length ≤ s.length := by
  intro n
  induction n with
  | zero =>
    intro s hs
    rw [List.length_eq_zero.mp (Nat.le_zero.mp hs)]
    simp [replaceAll_nil]
  | succ n ih =>
    intro s hs
    by_cases hsw : startsWith s [c, c] = true
    · obtain ⟨t, rfl⟩ := startsWith_pair.mp hsw
      rw [replaceAll_pos [c] (by simp) hsw]
      have hdrop : (c :: c :: t).drop ([c, c] : List Char).length = t := rfl
      rw [hdrop]
      have := ih t (by simp at hs; omega)
      simp only [List.length_cons, List.length_append, List.length_singleton,
        List.length_nil] at hs ⊢
      omega
    · cases s with
      | nil => simp [replaceAll_nil]
      | cons d t =>
        rw [replaceAll_neg [c] (by simp) (Bool.eq_false_iff.mpr hsw)]
        have := ih t (by simp at hs; omega)
        simp only [List.length_cons]
        omega

theorem collapse_step_lt {c : Char} : ∀ n (s : List Char), s.length ≤ n →
    containsSeq s [c, c] = true →
    (replaceAll s [c, c] [c]).length < s.length := by
  intro n
  induction n with
  | zero =>
    intro s hs h
    rw [List.length_eq_zero.mp (Nat.le_zero.mp hs)] at h
    simp [containsSeq, startsWith] at h
  | succ n ih =>
    intro s hs h
    by_cases hsw : startsWith s [c, c] = true
    · obtain ⟨t, rfl⟩ := startsWith_pair.mp hsw
      rw [replaceAll_pos [c] (by simp) hsw]
      have hdrop : (c :: c :: t).drop ([c, c] : List Char).length = t := rfl
      rw [hdrop]
      have hlen := @collapse_step_len c t.length t le_rfl
      simp only [List.length_cons, List.length_append, List.length_singleton,
        List.length_nil] at hs ⊢
      omega
    · cases s with
      | nil => simp [containsSeq, startsWith] at h
      | cons d t =>
        simp only [containsSeq, Bool.or_eq_true] at h
        rcases h with h | h
        · exact absurd h hsw
        · rw [replaceAll_neg [c] (by simp) (Bool.eq_false_iff.mpr hsw)]
          have := ih t (by simp at hs; omega) h
          simp only [List.length_cons]
          omega

theorem collapse_step_mem {c x : Char} : ∀ n (s : List Char), s.length ≤ n →
    x ∈ replaceAll s [c, c] [c] → x ∈ s := by
  intro n
  induction n with
  | zero =>
    intro s hs hx
    rw [List.length_eq_zero.mp (Nat.le_zero.mp hs)] at hx
    simp [replaceAll_nil] at hx
  | succ n ih =>
    intro s hs hx
    by_cases hsw : startsWith s [c, c] = true
    · obtain ⟨t, rfl⟩ := startsWith_pair.mp hsw
      rw [replaceAll_pos [c] (by simp) hsw] at hx
      have hdrop : (c :: c :: t).drop ([c, c] : List Char).length = t := rfl
      rw [hdrop] at hx
      simp only [List.cons_append, List.nil_append, List.mem_cons] at hx
      rcases hx with rfl | hx
      · exact List.mem_cons_self _ _
      · exact List.mem_cons_of_mem _ (List.mem_cons_of_mem _ (ih t (by simp at hs; omega) hx))
    · cases s with
      | nil => simp [replaceAll_nil] at hx
      | cons d t =>
        rw [replaceAll_neg [c] (by simp) (Bool.eq_false_iff.mpr hsw)] at hx
        simp only [List.mem_cons] at hx
        rcases hx with rfl | hx
        · exact List.mem_cons_self _ _
        · exact List.mem_cons_of_mem _ (ih t (by simp at hs; omega) hx)

theorem collapse_step_ne_nil {c : Char} {s : List Char} (hs : s ≠ []) :
    replaceAll s [c, c] [c] ≠ [] := by
  by_cases hsw : startsWith s [c, c] = true
  · obtain ⟨t, rfl⟩ := startsWith_pair.mp hsw
    rw [replaceAll_pos [c] (by simp) hsw]
    simp
  · cases s with
    | nil => exact absurd rfl hs
    | cons d t =>
      rw [replaceAll_neg [c] (by simp) (Bool.eq_false_iff.mpr hsw)]
      simp

theorem collapse_step_head {c a : Char} {s : List Char} (hh : s.head? = some a)
    (hne : a ≠ c) : (replaceAll s [c, c] [c]).head? = some a := by
  by_cases hsw : startsWith s [c, c] = true
  · obtain ⟨t, rfl⟩ := startsWith_pair.mp hsw
    simp only [List.head?_cons, Option.some.injEq] at hh
    exact absurd hh.symm hne
  · cases s with
    | nil => simp at hh
    | cons d t =>
      rw [replaceAll_neg [c] (by simp) (Bool.eq_false_iff.mpr hsw)]
      simpa using hh

theorem getLast?_cons_ne_nil {a : Char} {l : List Char} (h : l ≠ []) :
    (a :: l).getLast? = l.getLast? := by
  cases l with
  | nil => exact absurd rfl h
  | cons x xs => exact List.getLast?_cons_cons

theorem collapse_step_last {c a : Char} : ∀ n (s : List Char), s.length ≤ n →
    s.getLast? = some a → a ≠ c → (replaceAll s [c, c] [c]).getLast? = some a := by
  intro n
  induction n with
  | zero =>
    intro s hs hl _
    rw [List.length_eq_zero.mp (Nat.le_zero.mp hs)] at hl
    simp at hl
  | succ n ih =>
    intro s hs hl hne
    by_cases hsw : startsWith s [c, c] = true
    · obtain ⟨t, rfl⟩ := startsWith_pair.mp hsw
      rw [replaceAll_pos [c] (by simp) hsw]
      have hdrop : (c :: c :: t).drop ([c, c] : List Char).length = t := rfl
      rw [hdrop]
      cases t with
      | nil =>
        rw [List.getLast?_cons_cons, List.getLast?_singleton] at hl
        exact absurd (Option.some.inj hl).symm hne
      | cons e t' =>
        have hlt : (e :: t').getLast? = some a := by
          rwa [List.getLast?_cons_cons, List.getLast?_cons_cons] at hl
        have hrec := ih (e :: t') (by simp at hs ⊢; omega) hlt hne
        have hnn : replaceAll (e :: t') [c, c] [c] ≠ [] :=
          collapse_step_ne_nil (by simp)
        rw [List.getLast?_append_of_ne_nil _ hnn]
        exact hrec
    · cases s with
      | nil => simp at hl
      | cons d t =>
        rw [replaceAll_neg [c] (by simp) (Bool.eq_false_iff.mpr hsw)]
        cases t with
        | nil =>
          rw [List.getLast?_singleton] at hl
          rw [replaceAll_nil, List.getLast?_singleton]
          exact hl
        | cons e t' =>
          have hlt : (e :: t').getLast? = some a := by
            rwa [List.getLast?_cons_cons] at hl
          have hrec := ih (e :: t') (by simp at hs ⊢; omega) hlt hne
          have hnn : replaceAll (e :: t') [c, c] [c] ≠ [] :=
            collapse_step_ne_nil (by simp)
          rw [getLast?_cons_ne_nil hnn]
          exact hrec

/-! Lemmas about the iterated collapse loop. -/

theorem collapseFuel_no_pair {c : Char} : ∀ f (s : List Char), s.length ≤ f →
    containsSeq (collapseFuel f s c) [c, c] = false := by
  intro f
  induction f with
  | zero =>
    intro s hs
    rw [List.length_eq_zero.mp (Nat.le_zero.mp hs)]
    rfl
  | succ f ih =>
    intro s hs
    rw [collapseFuel]
    by_cases h : containsSeq s [c, c] = true
    · rw [if_pos h]
      have hlt := collapse_step_lt s.length s le_rfl h
      exact ih _ (by omega)
    · rw [if_neg h]
      exact Bool.eq_false_iff.mpr h

theorem collapseChar_no_pair (s : List Char) (c : Char) :
    containsSeq (collapseChar s c) [c, c] = false :=
  collapseFuel_no_pair s.length s le_rfl

theorem collapseChar_id {s : List Char} {c : Char}
    (h : containsSeq s [c, c] = false) : collapseChar s c = s := by
  unfold collapseChar
  cases s.length with
  | zero => rfl
  | succ n =>
    rw [collapseFuel, if_neg (by simp [h])]

theorem collapseFuel_mem {c x : Char} : ∀ f (s : List Char),
    x ∈ collapseFuel f s c → x ∈ s := by
  intro f
  induction f with
  | zero => intro s hx; exact hx
  | succ f ih =>
    intro s hx
    rw [collapseFuel] at hx
    by_cases h : containsSeq s [c, c] = true
    · rw [if_pos h] at hx
      exact collapse_step_mem s.length s le_rfl (ih _ hx)
    · rwa [if_neg h] at hx

theorem collapseChar_mem {c x : Char} {s : List Char}
    (h : x ∈ collapseChar s c) : x ∈ s :=
  collapseFuel_mem s.length s h

theorem collapseFuel_ne_nil {c : Char} : ∀ f (s : List Char), s ≠ [] →
    collapseFuel f s c ≠ [] := by
  intro f
  induction f with
  | zero => intro s hs; exact hs
  | succ f ih =>
    intro s hs
    rw [collapseFuel]
    by_cases h : containsSeq s [c, c] = true
    · rw [if_pos h]
      exact ih _ (collapse_step_ne_nil hs)
    · rwa [if_neg h]

theorem collapseFuel_head {c a : Char} : ∀ f (s : List Char), s.head? = some a →
    a ≠ c → (collapseFuel f s c).head? = some a := by
  intro f
  induction f with
  | zero => intro s hh _; exact hh
  | succ f ih =>
    intro s hh hne
    rw [collapseFuel]
    by_cases h : containsSeq s [c, c] = true
    · rw [if_pos h]
      exact ih _ (collapse_step_head hh hne) hne
    · rwa [if_neg h]

theorem collapseFuel_last {c a : Char} : ∀ f (s : List Char), s.getLast? = some a →
    a ≠ c → (collapseFuel f s c).getLast? = some a := by
  intro f
  induction f with
  | zero => intro s hh _; exact hh
  | succ f ih =>
    intro s hh hne
    rw [collapseFuel]
    by_cases h : containsSeq s [c, c] = true
    · rw [if_pos h]
      exact ih _ (collapse_step_last s.length s le_rfl hh hne) hne
    · rwa [if_neg h]

theorem collapseChar_ne_nil {c : Char} {s : List Char} (hs : s ≠ []) :
    collapseChar s c ≠ [] :=
  collapseFuel_ne_nil s.length s hs

theorem collapseChar_head {c a : Char} {s : List Char} (hh : s.head? = some a)
    (hne : a ≠ c) : (collapseChar s c).head? = some a :=
  collapseFuel_head s.length s hh hne

theorem collapseChar_last {c a : Char} {s : List Char} (hh : s.getLast? = some a)
    (hne : a ≠ c) : (collapseChar s c).getLast? = some a :=
  collapseFuel_last s.length s hh hne

/-! Lemmas about trimming. -/

theorem dropWhile_head_false {p : Char → Bool} {l : List Char} {a : Char}
    (h : (l.dropWhile p).head? = some a) : p a = false := by
  induction l with
  | nil => simp at h
  | cons c cs ih =>
    rw [List.dropWhile_cons] at h
    by_cases hp : p c = true
    · rw [if_pos hp] at h; exact ih h
    · rw [if_neg hp] at h
      simp only [List.head?_cons, Option.some.injEq] at h
      rw [← h]
      exact Bool.eq_false_iff.mpr hp

theorem dropWhile_id {p : Char → Bool} {l : List Char}
    (h : ∀ a, l.head? = some a → p a = false) : l.dropWhile p = l := by
  cases l with
  | nil => rfl
  | cons c cs =>
    rw [List.dropWhile_cons, if_neg (by simp [h c rfl])]

theorem dropWhileEnd_getLast_false {p : Char → Bool} {l : List Char} {a : Char}
    (h : (dropWhileEnd p l).getLast? = some a) : p a = false := by
  unfold dropWhileEnd at h
  rw [List.getLast?_reverse] at h
  exact dropWhile_head_false h

theorem dropWhileEnd_prefix (p : Char → Bool) (l : List Char) :
    ∃ t, l = dropWhileEnd p l ++ t := by
  refine ⟨(l.reverse.takeWhile p).reverse, ?_⟩
  unfold dropWhileEnd
  rw [← List.reverse_append, List.takeWhile_append_dropWhile, List.reverse_reverse]

theorem dropWhileEnd_head {p : Char → Bool} {l : List Char} {a : Char}
    (h : (dropWhileEnd p l).head? = some a) : l.head? = some a := by
  obtain ⟨t, ht⟩ := dropWhileEnd_prefix p l
  rw [ht, List.head?_append, h]
  rfl

theorem dropWhileEnd_id {p : Char → Bool} {l : List Char}
    (h : ∀ a, l.getLast? = some a → p a = false) : dropWhileEnd p l = l := by
  unfold dropWhileEnd
  rw [dropWhile_id, List.reverse_reverse]
  intro a ha
  apply h
  rwa [← List.head?_reverse]

theorem dropWhileEnd_mem {p : Char → Bool} {l : List Char} {x : Char}
    (h : x ∈ dropWhileEnd p l) : x ∈ l := by
  obtain ⟨t, ht⟩ := dropWhileEnd_prefix p l
  rw [ht]
  exact List.mem_append_left _ h

theorem trimSpace_head {s : List Char} {a : Char}
    (h : (trimSpace s).head? = some a) : isSpaceGo a = false := by
  unfold trimSpace at h
  exact dropWhile_head_false (dropWhileEnd_head h)

theorem trimSpace_last {s : List Char} {a : Char}
    (h : (trimSpace s).getLast? = some a) : isSpaceGo a = false :=
  dropWhileEnd_getLast_false h

theorem trimSpace_mem {s : List Char} {x : Char} (h : x ∈ trimSpace s) : x ∈ s := by
  unfold trimSpace at h
  exact (@List.dropWhile_sublist _ s isSpaceGo).subset (dropWhileEnd_mem h)

theorem trimSpace_id {s : List Char}
    (hh : ∀ a, s.head? = some a → isSpaceGo a = false)
    (hl : ∀ a, s.getLast? = some a → isSpaceGo a = false) : trimSpace s = s := by
  unfold trimSpace
  rw [dropWhile_id hh, dropWhileEnd_id hl]

theorem trimDashes_id {s : List Char}
    (hh : ∀ a, s.head? = some a → a ≠ '-')
    (hl : ∀ a, s.getLast? = some a → a ≠ '-') : trimDashes s = s := by
  unfold trimDashes
  rw [dropWhile_id (fun a ha => by simp [isDashChar, hh a ha]),
    dropWhileEnd_id (fun a ha => by simp [isDashChar, hl a ha])]

/-! Character-class facts used by the `slugify` invariants. -/

theorem toNat_ofNat_valid {m : Nat} (h : m < 55296) : (Char.ofNat m).toNat = m := by
  unfold Char.ofNat
  rw [dif_pos (Or.inl h : Nat.isValidChar m)]
  rfl

theorem isDigit_iff {c : Char} : c.isDigit = true ↔ 48 ≤ c.toNat ∧ c.toNat ≤ 57 := by
  simp only [Char.isDigit, Bool.and_eq_true, decide_eq_true_iff]
  exact Iff.rfl

theorem keepAlnum_iff {c : Char} : keepAlnum c = true ↔
    (97 ≤ c.toNat ∧ c.toNat ≤ 122) ∨ (48 ≤ c.toNat ∧ c.toNat ≤ 57) := by
  unfold keepAlnum
  exact decide_eq_true_iff

theorem keepAlnum_not_space {a : Char} (h : keepAlnum a = true) :
    isSpaceGo a = false := by
  simp only [isSpaceGo, Bool.or_eq_false_iff, beq_eq_false_iff_ne]
  refine ⟨⟨⟨⟨⟨?_, ?_⟩, ?_⟩, ?_⟩, ?_⟩, ?_⟩ <;> (rintro rfl; revert h; decide)

theorem keepAlnum_ne_dash {a : Char} (h : keepAlnum a = true) : a ≠ '-' := by
  rintro rfl; revert h; decide

theorem keepAlnum_ne_space {a : Char} (h : keepAlnum a = true) : a ≠ ' ' := by
  rintro rfl; revert h; decide

theorem keepAlnum_ne_pct {a : Char} (h : keepAlnum a = true) : a ≠ '%' := by
  rintro rfl; revert h; decide

theorem isDigit_keepAlnum {c : Char} (h : c.isDigit = true) : keepAlnum c = true :=
  keepAlnum_iff.mpr (Or.inr (isDigit_iff.mp h))

theorem toLowerGo_keepAlnum_id {c : Char} (h : keepAlnum c = true) :
    toLowerGo c = c := by
  unfold toLowerGo
  rw [if_neg]
  have := keepAlnum_iff.mp h
  omega

theorem toLowerGo_not_digit {c : Char} (h : c.isDigit = false) :
    (toLowerGo c).isDigit = false := by
  unfold toLowerGo
  by_cases h65 : 65 ≤ c.toNat ∧ c.toNat ≤ 90
  · rw [if_pos h65, Bool.eq_false_iff]
    intro hd
    have := isDigit_iff.mp hd
    rw [toNat_ofNat_valid (by omega)] at this
    omega
  · rwa [if_neg h65]

/-! Facts about `Nat.toDigits`. -/

theorem digitChar_isDigit {m : Nat} (h : m < 10) :
    (Nat.digitChar m).isDigit = true := by
  have hall : ∀ k, k < 10 → (Nat.digitChar k).isDigit = true := by decide
  exact hall m h

theorem toDigitsCore_len : ∀ (fuel n : Nat) (ds : List Char), fuel ≠ 0 →
    ds.length < (Nat.toDigitsCore 10 fuel n ds).length := by
  intro fuel
  induction fuel with
  | zero => intro n ds h; exact absurd rfl h
  | succ f ih =>
    intro n ds _
    show (Nat.toDigitsCore 10 (f + 1) n ds).length > _
    rw [Nat.toDigitsCore]
    by_cases h : n / 10 = 0
    · rw [if_pos h]
      simp
    · rw [if_neg h]
      cases f with
      | zero =>
        show ds.length < (Nat.toDigitsCore 10 0 (n / 10) _).length
        show ds.length < (Nat.digitChar (n % 10) :: ds).length
        simp
      | succ f' =>
        have := ih (n / 10) (Nat.digitChar (n % 10) :: ds) (by simp)
        simp only [List.length_cons] at this
        omega

theorem toDigits_ne_nil (n : Nat) : Nat.toDigits 10 n ≠ [] := by
  have h := toDigitsCore_len (n + 1) n [] (by simp)
  intro he
  rw [Nat.toDigits] at he
  rw [he] at h
  simp at h

theorem toDigitsCore_digits : ∀ (fuel n : Nat) (ds : List Char),
    (∀ x ∈ ds, x.isDigit = true) →
    ∀ x ∈ Nat.toDigitsCore 10 fuel n ds, x.isDigit = true := by
  intro fuel
  induction fuel with
  | zero => intro n ds h; exact h
  | succ f ih =>
    intro n ds h x hx
    rw [Nat.toDigitsCore] at hx
    by_cases hn : n / 10 = 0
    · rw [if_pos hn] at hx
      rcases List.mem_cons.mp hx with rfl | hx
      · exact digitChar_isDigit (Nat.mod_lt _ (by norm_num))
      · exact h x hx
    · rw [if_neg hn] at hx
      refine ih (n / 10) _ ?_ x hx
      intro y hy
      rcases List.mem_cons.mp hy with rfl | hy
      · exact digitChar_isDigit (Nat.mod_lt _ (by norm_num))
      · exact h y hy

theorem toDigits_digits (n : Nat) : ∀ x ∈ Nat.toDigits 10 n, x.isDigit = true := by
  rw [Nat.toDigits]
  exact toDigitsCore_digits (n + 1) n [] (by simp)

/-! Invariants of `cleanPiece`. -/

theorem spaceOut_cases (c : Char) :
    (keepAlnum (spaceOut c) = true ∧ spaceOut c = c) ∨ spaceOut c = ' ' := by
  unfold spaceOut
  by_cases h : keepAlnum c = true
  · rw [if_pos h]
    exact Or.inl ⟨h, rfl⟩
  · rw [if_neg h]
    exact Or.inr rfl

theorem cleanPiece_u_chars {p : List Char} {y : Char}
    (hy : y ∈ collapseChar (trimSpace ((p.map toLowerGo).map spaceOut)) ' ') :
    keepAlnum y = true ∨ y = ' ' := by
  have hy2 := trimSpace_mem (collapseChar_mem hy)
  obtain ⟨z, hz, hzy⟩ := List.mem_map.mp hy2
  rcases spaceOut_cases z with ⟨hk, he⟩ | he
  · exact Or.inl (by rw [← hzy]; exact hk)
  · exact Or.inr (by rw [← hzy]; exact he)

theorem cleanPiece_chars {p : List Char} {x : Char} (hx : x ∈ cleanPiece p) :
    keepAlnum x = true ∨ x = '-' := by
  unfold cleanPiece at hx
  rw [replaceAll_single] at hx
  obtain ⟨y, hy, hxy⟩ := List.mem_map.mp hx
  have hcase := cleanPiece_u_chars hy
  rcases hcase with hk | hs
  · rw [if_neg (keepAlnum_ne_space hk)] at hxy
    exact Or.inl (hxy ▸ hk)
  · rw [hs] at hxy
    simp only [if_pos] at hxy
    exact Or.inr hxy.symm

theorem cleanPiece_no_pair (p : List Char) :
    containsSeq (cleanPiece p) ['-', '-'] = false := by
  by_contra hcon
  rw [Bool.not_eq_false] at hcon
  unfold cleanPiece at hcon
  rw [replaceAll_single] at hcon
  obtain ⟨x, y, hpair, hfx, hfy⟩ := contains_map_pair hcon
  obtain ⟨hxmem, hymem⟩ := contains_pair_mem hpair
  have hx' : x = ' ' := by
    rcases cleanPiece_u_chars hxmem with hk | hs
    · by_cases hxs : x = ' '
      · exact hxs
      · rw [if_neg hxs] at hfx
        exact absurd hfx (keepAlnum_ne_dash hk)
    · exact hs
  have hy' : y = ' ' := by
    rcases cleanPiece_u_chars hymem with hk | hs
    · by_cases hys : y = ' '
      · exact hys
      · rw [if_neg hys] at hfy
        exact absurd hfy (keepAlnum_ne_dash hk)
    · exact hs
  rw [hx', hy'] at hpair
  have := collapseChar_no_pair (trimSpace ((p.map toLowerGo).map spaceOut)) ' '
  rw [hpair] at this
  exact Bool.noConfusion this

theorem cleanPiece_head {p : List Char} {a : Char}
    (h : (cleanPiece p).head? = some a) : a ≠ '-' := by
  unfold cleanPiece at h
  rw [replaceAll_single, List.head?_map] at h
  cases hu : (collapseChar (trimSpace ((p.map toLowerGo).map spaceOut)) ' ').head? with
  | none => rw [hu] at h; simp at h
  | some y =>
    rw [hu] at h
    simp only [Option.map_some', Option.some.injEq] at h
    have hymem : y ∈ collapseChar (trimSpace ((p.map toLowerGo).map spaceOut)) ' ' :=
      List.mem_of_mem_head? hu
    cases ht : (trimSpace ((p.map toLowerGo).map spaceOut)).head? with
    | none =>
      cases htt : trimSpace ((p.map toLowerGo).map spaceOut) with
      | nil => rw [htt] at hu; simp [collapseChar, collapseFuel] at hu
      | cons c cs => rw [htt] at ht; simp at ht
    | some b =>
      have hbs : isSpaceGo b = false := trimSpace_head ht
      have hbne : b ≠ ' ' := by
        intro e
        rw [e] at hbs
        exact Bool.noConfusion hbs
      have := collapseChar_head ht hbne
      rw [this] at hu
      cases hu
      rcases cleanPiece_u_chars hymem with hk | hs
      · rw [if_neg (keepAlnum_ne_space hk)] at h
        rw [← h]
        exact keepAlnum_ne_dash hk
      · exact absurd hs hbne

theorem cleanPiece_last {p : List Char} {a : Char}
    (h : (cleanPiece p).getLast? = some a) : a ≠ '-' := by
  unfold cleanPiece at h
  rw [replaceAll_single, List.getLast?_map] at h
  cases hu : (collapseChar (trimSpace ((p.map toLowerGo).map spaceOut)) ' ').getLast? with
  | none => rw [hu] at h; simp at h
  | some y =>
    rw [hu] at h
    simp only [Option.map_some', Option.some.injEq] at h
    have hymem : y ∈ collapseChar (trimSpace ((p.map toLowerGo).map spaceOut)) ' ' :=
      List.mem_of_mem_getLast? hu
    cases ht : (trimSpace ((p.map toLowerGo).map spaceOut)).getLast? with
    | none =>
      cases htt : trimSpace ((p.map toLowerGo).map spaceOut) with
      | nil => rw [htt] at hu; simp [collapseChar, collapseFuel] at hu
      | cons c cs =>
        rw [htt] at ht
        simp [List.getLast?_eq_getLast_of_ne_nil] at ht
    | some b =>
      have hbs : isSpaceGo b = false := trimSpace_last ht
      have hbne : b ≠ ' ' := by
        intro e
        rw [e] at hbs
        exact Bool.noConfusion hbs
      have := collapseChar_last ht hbne
      rw [this] at hu
      cases hu
      rcases cleanPiece_u_chars hymem with hk | hs
      · rw [if_neg (keepAlnum_ne_space hk)] at h
        rw [← h]
        exact keepAlnum_ne_dash hk
      · exact absurd hs hbne

theorem cleanPiece_no_digit {p : List Char} (hp : ∀ z ∈ p, z.isDigit = false)
    {x : Char} (hx : x ∈ cleanPiece p) : x.isDigit = false := by
  unfold cleanPiece at hx
  rw [replaceAll_single] at hx
  obtain ⟨y, hy, hxy⟩ := List.mem_map.mp hx
  by_cases hys : y = ' '
  · rw [if_pos hys] at hxy
    rw [← hxy]
    decide
  · rw [if_neg hys] at hxy
    rw [← hxy]
    have hy2 := trimSpace_mem (collapseChar_mem hy)
    obtain ⟨z, hz, hzy⟩ := List.mem_map.mp hy2
    obtain ⟨z0, hz0, hz0y⟩ := List.mem_map.mp hz
    rcases spaceOut_cases z with ⟨hk, he⟩ | he
    · rw [he] at hzy
      rw [← hzy, ← hz0y]
      exact toLowerGo_not_digit (hp z0 hz0)
    · rw [he] at hzy
      exact absurd hzy.symm hys

/-! ## The join structure of `slugify` -/

theorem joinDash_ne_nil {out : List (List Char)} (ho : out ≠ [])
    (hq : ∀ q ∈ out, q ≠ []) : joinDash out ≠ [] := by
  cases out with
  | nil => exact absurd rfl ho
  | cons q out' =>
    cases out' with
    | nil => exact hq q (List.mem_cons_self _ _)
    | cons r out'' =>
      show q ++ '-' :: joinDash (r :: out'') ≠ []
      simp

theorem joinDash_mem {out : List (List Char)} {x : Char}
    (h : x ∈ joinDash out) : x = '-' ∨ ∃ q ∈ out, x ∈ q := by
  induction out with
  | nil => simp [joinDash] at h
  | cons q out' ih =>
    cases out' with
    | nil =>
      exact Or.inr ⟨q, List.mem_cons_self _ _, h⟩
    | cons r out'' =>
      have h2 : x ∈ q ++ '-' :: joinDash (r :: out'') := h
      rcases List.mem_append.mp h2 with hx | hx
      · exact Or.inr ⟨q, List.mem_cons_self _ _, hx⟩
      · rcases List.mem_cons.mp hx with rfl | hx
        · exact Or.inl rfl
        · rcases ih hx with hd | ⟨p, hp, hxp⟩
          · exact Or.inl hd
          · exact Or.inr ⟨p, List.mem_cons_of_mem _ hp, hxp⟩

theorem joinDash_good : ∀ out : List (List Char), (∀ q ∈ out, PieceGood q) →
    containsSeq (joinDash out) ['-', '-'] = false ∧
    (∀ a, (joinDash out).head? = some a → a ≠ '-') ∧
    (∀ a, (joinDash out).getLast? = some a → a ≠ '-') := by
  intro out
  induction out with
  | nil => intro _; exact ⟨rfl, by simp [joinDash], by simp [joinDash]⟩
  | cons q out' ih =>
    intro h
    obtain ⟨hqne, hqchars, hqpair, hqhead, hqlast⟩ := h q (List.mem_cons_self _ _)
    cases out' with
    | nil => exact ⟨hqpair, hqhead, hqlast⟩
    | cons r out'' =>
      obtain ⟨ihpair, ihhead, ihlast⟩ := ih (fun p hp => h p (List.mem_cons_of_mem _ hp))
      have hJne : joinDash (r :: out'') ≠ [] :=
        joinDash_ne_nil (by simp) (fun p hp => (h p (List.mem_cons_of_mem _ hp)).1)
      have hshape : joinDash (q :: r :: out'') = q ++ '-' :: joinDash (r :: out'') := rfl
      rw [hshape]
      refine ⟨?_, ?_, ?_⟩
      · apply contains_pair_append hqpair
        · simp only [containsSeq, Bool.or_eq_false_iff]
          constructor
          · rw [Bool.eq_false_iff]
            intro hsw
            obtain ⟨-, hh⟩ := startsWith_cons_pair.mp hsw
            exact ihhead '-' hh rfl
          · exact ihpair
        · rintro ⟨hl, -⟩
          exact hqlast '-' hl rfl
      · intro a ha
        cases q with
        | nil => exact absurd rfl hqne
        | cons c cs =>
          rw [List.cons_append, List.head?_cons] at ha
          exact hqhead a (by rw [List.head?_cons]; exact ha)
      · intro a ha
        rw [List.getLast?_append_of_ne_nil _ (by simp), getLast?_cons_ne_nil hJne] at ha
        exact ihlast a ha

theorem buildOut_good : ∀ (parts : List (List Char)) (i m : Nat),
    ∀ q ∈ buildOut parts i m, PieceGood q := by
  intro parts
  induction parts with
  | nil => intro i m q hq; simp [buildOut] at hq
  | cons p ps ih =>
    intro i m q hq
    simp only [buildOut, List.append_assoc, List.mem_append] at hq
    rcases hq with hq | hq | hq
    · by_cases hc : p ≠ [] ∧ cleanPiece p ≠ []
      · rw [if_pos hc] at hq
        rcases List.mem_singleton.mp hq with rfl
        exact ⟨hc.2, fun x hx => cleanPiece_chars hx, cleanPiece_no_pair p,
          fun a ha => cleanPiece_head ha, fun a ha => cleanPiece_last ha⟩
      · rw [if_neg hc] at hq
        simp at hq
    · by_cases hi : i < m
      · rw [if_pos hi] at hq
        rcases List.mem_singleton.mp hq with rfl
        refine ⟨toDigits_ne_nil i, ?_, ?_, ?_, ?_⟩
        · intro x hx
          exact Or.inl (isDigit_keepAlnum (toDigits_digits i x hx))
        · rw [Bool.eq_false_iff]
          intro hcon
          have hm := (contains_pair_mem hcon).1
          have := toDigits_digits i '-' hm
          exact absurd this (by decide)
        · intro a ha
          have := toDigits_digits i a (List.mem_of_mem_head? ha)
          intro e
          rw [e] at this
          exact absurd this (by decide)
        · intro a ha
          have := toDigits_digits i a (List.mem_of_mem_getLast? ha)
          intro e
          rw [e] at this
          exact absurd this (by decide)
      · rw [if_neg hi] at hq
        simp at hq
    · exact ih (i + 1) m q hq

/-- `slugify` equals the bare join of its pieces: the assembled key already
has no double dash and no edge dashes, so the final collapse loop and the
final trim are both the identity. -/
theorem slugify_eq (s : List Char) :
    slugify s = joinDash (buildOut (splitParts s) 0 (findMatches s).length) := by
  have hgood : ∀ q ∈ buildOut (splitParts s) 0 (findMatches s).length, PieceGood q :=
    buildOut_good (splitParts s) 0 (findMatches s).length
  have hj := joinDash_good _ hgood
  show trimDashes
      (collapseChar (joinDash (buildOut (splitParts s) 0 (findMatches s).length)) '-') = _
  rw [collapseChar_id hj.1, trimDashes_id hj.2.1 hj.2.2]

/-- The output invariant of `slugify`: characters in `[a-z0-9-]`, no double
dash, no leading or trailing dash. -/
theorem slugify_inv (s : List Char) :
    (∀ x ∈ slugify s, keepAlnum x = true ∨ x = '-') ∧
    containsSeq (slugify s) ['-', '-'] = false ∧
    (∀ a, (slugify s).head? = some a → a ≠ '-') ∧
    (∀ a, (slugify s).getLast? = some a → a ≠ '-') := by
  rw [slugify_eq]
  have hgood := buildOut_good (splitParts s) 0 (findMatches s).length
  have hj := joinDash_good _ hgood
  refine ⟨?_, hj.1, hj.2.1, hj.2.2⟩
  intro x hx
  rcases joinDash_mem hx with rfl | ⟨q, hq, hxq⟩
  · exact Or.inr rfl
  · exact (hgood q hq).2.1 x hxq

/-! ## `slugify` is the identity on its own output -/

/-- On an input with no `%`, the pending-character scans find no match and a
single literal segment. -/
theorem scan_no_pct : ∀ s : List Char, (∀ x ∈ s, x ≠ '%') →
    (∀ p, p ≠ '%' → spGo (some p) s = [p :: s] ∧ fmGo (some p) s = []) ∧
    (spGo none s = [s] ∧ fmGo none s = []) := by
  intro s
  induction s with
  | nil =>
    intro _
    exact ⟨fun p _ => ⟨rfl, rfl⟩, rfl, rfl⟩
  | cons c cs ih =>
    intro h
    have hc : c ≠ '%' := h c (List.mem_cons_self _ _)
    have ih' := ih (fun x hx => h x (List.mem_cons_of_mem _ hx))
    have hrec := ih'.1 c hc
    constructor
    · intro p hp
      have hcond : (p == '%' && isVerb c) = false := by
        simp [hp]
      constructor
      · show (if (p == '%' && isVerb c) = true then [] :: spGo none cs
          else consHead p (spGo (some c) cs)) = [p :: c :: cs]
        rw [if_neg (by simp [hcond]), hrec.1]
        rfl
      · show (if (p == '%' && isVerb c) = true then ['%', c] :: fmGo none cs
          else fmGo (some c) cs) = []
        rw [if_neg (by simp [hcond]), hrec.2]
    · exact ⟨hrec.1, hrec.2⟩

/-- `cleanPiece` fixes any string satisfying the key invariant: lowering is
the identity on `[a-z0-9-]`, the dashes round-trip through spaces, and the
trim and collapse stages are the identity because the invariant rules out
edge dashes and double dashes. -/
theorem cleanPiece_fixed {k : List Char}
    (hchars : ∀ x ∈ k, keepAlnum x = true ∨ x = '-')
    (hpair : containsSeq k ['-', '-'] = false)
    (hhead : ∀ a, k.head? = some a → a ≠ '-')
    (hlast : ∀ a, k.getLast? = some a → a ≠ '-') :
    cleanPiece k = k := by
  show replaceAll (collapseChar (trimSpace ((k.map toLowerGo).map spaceOut)) ' ')
    [' '] ['-'] = k
  have h1 : k.map toLowerGo = k := by
    have hpt : ∀ x ∈ k, toLowerGo x = x := by
      intro x hx
      rcases hchars x hx with hkx | rfl
      · exact toLowerGo_keepAlnum_id hkx
      · decide
    rw [List.map_congr_left hpt, List.map_id']
  rw [h1]
  have hso : ∀ x ∈ k, keepAlnum x = true → spaceOut x = x := by
    intro x _ hkx
    unfold spaceOut
    rw [if_pos hkx]
  have hts : trimSpace (k.map spaceOut) = k.map spaceOut := by
    apply trimSpace_id
    · intro a ha
      rw [List.head?_map] at ha
      cases hh : k.head? with
      | none => rw [hh] at ha; simp at ha
      | some b =>
        rw [hh] at ha
        simp only [Option.map_some', Option.some.injEq] at ha
        have hbk : b ∈ k := List.mem_of_mem_head? hh
        rcases hchars b hbk with hkb | rfl
        · rw [← ha, hso b hbk hkb]
          exact keepAlnum_not_space hkb
        · exact absurd rfl (hhead _ hh)
    · intro a ha
      rw [List.getLast?_map] at ha
      cases hh : k.getLast? with
      | none => rw [hh] at ha; simp at ha
      | some b =>
        rw [hh] at ha
        simp only [Option.map_some', Option.some.injEq] at ha
        have hbk : b ∈ k := List.mem_of_mem_getLast? hh
        rcases hchars b hbk with hkb | rfl
        · rw [← ha, hso b hbk hkb]
          exact keepAlnum_not_space hkb
        · exact absurd rfl (hlast _ hh)
  rw [hts]
  have hcc : containsSeq (k.map spaceOut) [' ', ' '] = false := by
    by_contra hcon
    rw [Bool.not_eq_false] at hcon
    obtain ⟨x, y, hpair2, hfx, hfy⟩ := contains_map_pair hcon
    obtain ⟨hxk, hyk⟩ := contains_pair_mem hpair2
    have hx' : x = '-' := by
      rcases hchars x hxk with hkx | e
      · rw [hso x hxk hkx] at hfx
        rw [hfx] at hkx
        exact absurd hkx (by decide)
      · exact e
    have hy' : y = '-' := by
      rcases hchars y hyk with hky | e
      · rw [hso y hyk hky] at hfy
        rw [hfy] at hky
        exact absurd hky (by decide)
      · exact e
    rw [hx', hy'] at hpair2
    rw [hpair2] at hpair
    exact Bool.noConfusion hpair
  rw [collapseChar_id hcc, replaceAll_single, List.map_map]
  have hcomp : ∀ x ∈ k, ((fun c => if c = ' ' then '-' else c) ∘ spaceOut) x = x := by
    intro x hx
    rcases hchars x hx with hkx | rfl
    · show (if spaceOut x = ' ' then '-' else spaceOut x) = x
      rw [hso x hx hkx, if_neg (keepAlnum_ne_space hkx)]
    · show (if spaceOut '-' = ' ' then '-' else spaceOut '-') = '-'
      decide
  rw [List.map_congr_left hcomp, List.map_id']

/-- `slugify` is the identity on any string satisfying the key invariant. -/
theorem slugify_fixed {k : List Char}
    (hchars : ∀ x ∈ k, keepAlnum x = true ∨ x = '-')
    (hpair : containsSeq k ['-', '-'] = false)
    (hhead : ∀ a, k.head? = some a → a ≠ '-')
    (hlast : ∀ a, k.getLast? = some a → a ≠ '-') :
    slugify k = k := by
  cases hk : k with
  | nil => rfl
  | cons c cs =>
    rw [← hk]
    have hkne : k ≠ [] := by rw [hk]; simp
    have hpct : ∀ x ∈ k, x ≠ '%' := by
      intro x hx
      rcases hchars x hx with hkx | rfl
      · exact keepAlnum_ne_pct hkx
      · decide
    obtain ⟨hsp, hfm⟩ := (scan_no_pct k hpct).2
    have hsp' : splitParts k = [k] := hsp
    have hfm' : findMatches k = [] := hfm
    rw [slugify_eq, hsp', hfm']
    have hcp : cleanPiece k = k :=
      cleanPiece_fixed hchars hpair hhead hlast
    show joinDash ((if k ≠ [] ∧ cleanPiece k ≠ [] then [cleanPiece k] else []) ++
      (if 0 < ([] : List (List Char)).length then [Nat.toDigits 10 0] else []) ++
      buildOut [] 1 ([] : List (List Char)).length) = k
    rw [hcp, if_pos ⟨hkne, hkne⟩, if_neg (by simp)]
    rfl

/-- C9: `slugify` is deterministic (it is a pure function of its input text)
and idempotent — applying it to its own output returns that output
unchanged: the output only contains `[a-z0-9-]`, has no double dash and no
edge dashes, and on such strings every stage of `slugify` is the identity. -/
theorem C9_slugify_deterministic_idempotent :
    (∀ s t : List Char, s = t → slugify s = slugify t) ∧
      ∀ s : List Char, slugify (slugify s) = slugify s := by
  refine ⟨fun s t h => by rw [h], fun s => ?_⟩
  have hinv := slugify_inv s
  exact slugify_fixed hinv.1 hinv.2.1 hinv.2.2.1 hinv.2.2.2

/-- C9, witness: determinism and idempotence applied at the format string
`"Hello %s World"` (whose key is `hello-0-world`). -/
theorem C9_slugify_witness :
    slugify "Hello %s World".data = slugify "Hello %s World".data ∧
      slugify (slugify "Hello %s World".data) = slugify "Hello %s World".data :=
  ⟨C9_slugify_deterministic_idempotent.1 _ _ rfl,
    C9_slugify_deterministic_idempotent.2 _⟩

/-! ## Digit runs of the key (claim C3) -/

theorem DR_cons_nondigit {c : Char} (l : List Char) (hc : c.isDigit = false) :
    digitRuns (c :: l) = digitRuns l := by
  show (if c.isDigit = true then _ else digitRuns l) = digitRuns l
  rw [if_neg (by simp [hc])]

theorem DR_nodigit {l : List Char} (h : ∀ x ∈ l, x.isDigit = false) :
    digitRuns l = [] := by
  induction l with
  | nil => rfl
  | cons c cs ih =>
    rw [DR_cons_nondigit cs (h c (List.mem_cons_self _ _))]
    exact ih (fun x hx => h x (List.mem_cons_of_mem _ hx))

theorem DR_ne_nil_of_digit : ∀ (l : List Char) (c : Char), c.isDigit = true →
    digitRuns (c :: l) ≠ [] := by
  intro l
  induction l with
  | nil =>
    intro c hc
    show (if c.isDigit = true then [[c]] else digitRuns []) ≠ []
    rw [if_pos hc]
    simp
  | cons c2 l' ih =>
    intro c hc
    show (if c.isDigit = true then
        (if c2.isDigit = true then
          match digitRuns (c2 :: l') with
          | r :: rs => (c :: r) :: rs
          | [] => [[c]]
        else [c] :: digitRuns (c2 :: l'))
      else digitRuns (c2 :: l')) ≠ []
    rw [if_pos hc]
    by_cases h2 : c2.isDigit = true
    · rw [if_pos h2]
      cases hd : digitRuns (c2 :: l') with
      | nil => simp
      | cons r rs => simp
    · rw [if_neg h2]
      simp

theorem DR_alldigit : ∀ l : List Char, l ≠ [] → (∀ x ∈ l, x.isDigit = true) →
    digitRuns l = [l] := by
  intro l
  induction l with
  | nil => intro h; exact absurd rfl h
  | cons c cs ih =>
    intro _ h
    have hc : c.isDigit = true := h c (List.mem_cons_self _ _)
    cases cs with
    | nil =>
      show (if c.isDigit = true then [[c]] else digitRuns []) = [[c]]
      rw [if_pos hc]
    | cons c2 l' =>
      have h2 : c2.isDigit = true := h c2 (List.mem_cons_of_mem _ (List.mem_cons_self _ _))
      have hrec : digitRuns (c2 :: l') = [c2 :: l'] :=
        ih (by simp) (fun x hx => h x (List.mem_cons_of_mem _ hx))
      show (if c.isDigit = true then
          (if c2.isDigit = true then
            match digitRuns (c2 :: l') with
            | r :: rs => (c :: r) :: rs
            | [] => [[c]]
          else [c] :: digitRuns (c2 :: l'))
        else digitRuns (c2 :: l')) = [c :: c2 :: l']
      rw [if_pos hc, if_pos h2, hrec]

theorem DR_append : ∀ a b : List Char,
    (∀ h, b.head? = some h → h.isDigit = false) →
    digitRuns (a ++ b) = digitRuns a ++ digitRuns b := by
  intro a
  induction a with
  | nil => intro b _; rfl
  | cons c a' ih =>
    intro b hb
    by_cases hc : c.isDigit = true
    · cases a' with
      | nil =>
        cases b with
        | nil =>
          show digitRuns [c] = digitRuns [c] ++ digitRuns []
          rw [show digitRuns ([] : List Char) = [] from rfl, List.append_nil]
        | cons h t =>
          have hhd : h.isDigit = false := hb h rfl
          show digitRuns (c :: h :: t) = digitRuns [c] ++ digitRuns (h :: t)
          show (if c.isDigit = true then
              (if h.isDigit = true then
                match digitRuns (h :: t) with
                | r :: rs => (c :: r) :: rs
                | [] => [[c]]
              else [c] :: digitRuns (h :: t))
            else digitRuns (h :: t)) = digitRuns [c] ++ digitRuns (h :: t)
          rw [if_pos hc, if_neg (by simp [hhd])]
          show [c] :: digitRuns (h :: t) =
            (if c.isDigit = true then [[c]] else digitRuns []) ++ digitRuns (h :: t)
          rw [if_pos hc]
          rfl
      | cons c2 a'' =>
        have hrec := ih b hb
        by_cases h2 : c2.isDigit = true
        · obtain ⟨r, rs, hd⟩ : ∃ r rs, digitRuns (c2 :: a'') = r :: rs := by
            cases hd : digitRuns (c2 :: a'') with
            | nil => exact absurd hd (DR_ne_nil_of_digit a'' c2 h2)
            | cons r rs => exact ⟨r, rs, rfl⟩
          have hd2 : digitRuns (c2 :: (a'' ++ b)) = r :: (rs ++ digitRuns b) := by
            have : digitRuns ((c2 :: a'') ++ b) = (r :: rs) ++ digitRuns b := by
              rw [hrec, hd]
            simpa using this
          show (if c.isDigit = true then
              (if c2.isDigit = true then
                match digitRuns (c2 :: (a'' ++ b)) with
                | r :: rs => (c :: r) :: rs
                | [] => [[c]]
              else [c] :: digitRuns (c2 :: (a'' ++ b)))
            else digitRuns (c2 :: (a'' ++ b))) = digitRuns (c :: c2 :: a'') ++ digitRuns b
          rw [if_pos hc, if_pos h2, hd2]
          show (c :: r) :: (rs ++ digitRuns b) = digitRuns (c :: c2 :: a'') ++ digitRuns b
          have hL : digitRuns (c :: c2 :: a'') = (c :: r) :: rs := by
            show (if c.isDigit = true then
                (if c2.isDigit = true then
                  match digitRuns (c2 :: a'') with
                  | r :: rs => (c :: r) :: rs
                  | [] => [[c]]
                else [c] :: digitRuns (c2 :: a''))
              else digitRuns (c2 :: a'')) = (c :: r) :: rs
            rw [if_pos hc, if_pos h2, hd]
          rw [hL]
          rfl
        · have hd2 : digitRuns (c2 :: (a'' ++ b)) = digitRuns (c2 :: a'') ++ digitRuns b := by
            simpa using ih b hb
          show (if c.isDigit = true then
              (if c2.isDigit = true then
                match digitRuns (c2 :: (a'' ++ b)) with
                | r :: rs => (c :: r) :: rs
                | [] => [[c]]
              else [c] :: digitRuns (c2 :: (a'' ++ b)))
            else digitRuns (c2 :: (a'' ++ b))) = digitRuns (c :: c2 :: a'') ++ digitRuns b
          rw [if_pos hc, if_neg (by simp [h2]), hd2]
          have hL : digitRuns (c :: c2 :: a'') = [c] :: digitRuns (c2 :: a'') := by
            show (if c.isDigit = true then
                (if c2.isDigit = true then
                  match digitRuns (c2 :: a'') with
                  | r :: rs => (c :: r) :: rs
                  | [] => [[c]]
                else [c] :: digitRuns (c2 :: a''))
              else digitRuns (c2 :: a'')) = [c] :: digitRuns (c2 :: a'')
            rw [if_pos hc, if_neg (by simp [h2])]
          rw [hL]
          rfl
    · have hcf : c.isDigit = false := Bool.eq_false_iff.mpr hc
      rw [List.cons_append, DR_cons_nondigit _ hcf, DR_cons_nondigit _ hcf]
      exact ih b hb

theorem DR_join : ∀ out : List (List Char), (∀ q ∈ out, q ≠ []) →
    digitRuns (joinDash out) = (out.map digitRuns).flatten := by
  intro out
  induction out with
  | nil => intro _; rfl
  | cons q out' ih =>
    intro h
    cases out' with
    | nil =>
      show digitRuns q = (List.map digitRuns [q]).flatten
      simp
    | cons r out'' =>
      have hshape : joinDash (q :: r :: out'') = q ++ '-' :: joinDash (r :: out'') := rfl
      rw [hshape, DR_append q _ (fun x hx => by
        rw [List.head?_cons, Option.some.injEq] at hx
        rw [← hx]
        decide)]
      rw [DR_cons_nondigit _ (by decide)]
      rw [ih (fun p hp => h p (List.mem_cons_of_mem _ hp))]
      simp

theorem spGo_fmGo_length : ∀ (s : List Char) (pend : Option Char),
    (spGo pend s).length = (fmGo pend s).length + 1 := by
  intro s
  induction s with
  | nil =>
    intro pend
    cases pend <;> rfl
  | cons c cs ih =>
    intro pend
    cases pend with
    | none => exact ih (some c)
    | some p =>
      show (if (p == '%' && isVerb c) = true then [] :: spGo none cs
          else consHead p (spGo (some c) cs)).length =
        (if (p == '%' && isVerb c) = true then ['%', c] :: fmGo none cs
          else fmGo (some c) cs).length + 1
      by_cases hm : (p == '%' && isVerb c) = true
      · rw [if_pos hm, if_pos hm]
        simp only [List.length_cons]
        rw [ih none]
      · rw [if_neg hm, if_neg hm]
        have hch : ∀ L : List (List Char), (consHead p L).length = max L.length 1 := by
          intro L
          cases L with
          | nil => rfl
          | cons a as =>
            show as.length + 1 = max (as.length + 1) 1
            omega
        rw [hch, ih (some c)]
        omega

theorem consHead_mem {c : Char} {L : List (List Char)} {p : List Char}
    (h : p ∈ consHead c L) :
    (L = [] ∧ p = [c]) ∨ ∃ p0 ps, L = p0 :: ps ∧ (p = c :: p0 ∨ p ∈ ps) := by
  cases L with
  | nil =>
    rcases List.mem_singleton.mp h with rfl
    exact Or.inl ⟨rfl, rfl⟩
  | cons p0 ps =>
    rcases List.mem_cons.mp h with rfl | h
    · exact Or.inr ⟨p0, ps, rfl, Or.inl rfl⟩
    · exact Or.inr ⟨p0, ps, rfl, Or.inr h⟩

theorem spGo_mem : ∀ (s : List Char) (pend : Option Char) (p : List Char),
    p ∈ spGo pend s → ∀ x ∈ p, x ∈ pend.toList ++ s := by
  intro s
  induction s with
  | nil =>
    intro pend p hp x hx
    cases pend with
    | none =>
      rcases List.mem_singleton.mp hp with rfl
      simp at hx
    | some q =>
      rcases List.mem_singleton.mp hp with rfl
      rcases List.mem_singleton.mp hx with rfl
      simp
  | cons c cs ih =>
    intro pend p hp x hx
    cases pend with
    | none =>
      have := ih (some c) p hp x hx
      simpa using this
    | some q =>
      by_cases hm : (q == '%' && isVerb c) = true
      · rw [show spGo (some q) (c :: cs) = [] :: spGo none cs from by
          show (if (q == '%' && isVerb c) = true then _ else _) = _
          rw [if_pos hm]] at hp
        rcases List.mem_cons.mp hp with rfl | hp
        · simp at hx
        · have := ih none p hp x hx
          simp only [Option.toList, List.nil_append] at this
          simp [List.mem_cons, List.mem_append]
          right
          exact Or.inr this
      · rw [show spGo (some q) (c :: cs) = consHead q (spGo (some c) cs) from by
          show (if (q == '%' && isVerb c) = true then _ else _) = _
          rw [if_neg hm]] at hp
        rcases consHead_mem hp with ⟨-, rfl⟩ | ⟨p0, ps, hL, hcase⟩
        · rcases List.mem_singleton.mp hx with rfl
          simp
        · rcases hcase with rfl | hps
          · rcases List.mem_cons.mp hx with rfl | hx0
            · simp
            · have := ih (some c) p0 (hL ▸ List.mem_cons_self _ _) x hx0
              simp only [Option.toList] at this ⊢
              simp only [List.singleton_append, List.mem_cons] at this ⊢
              exact Or.inr this
          · have := ih (some c) p (hL ▸ List.mem_cons_of_mem _ hps) x hx
            simp only [Option.toList] at this ⊢
            simp only [List.singleton_append, List.mem_cons] at this ⊢
            exact Or.inr this

theorem buildOut_runs : ∀ (parts : List (List Char)) (i m : Nat),
    i + parts.length = m + 1 →
    (∀ p ∈ parts, ∀ x ∈ cleanPiece p, x.isDigit = false) →
    ((buildOut parts i m).map digitRuns).flatten =
      (List.range' i (m - i)).map (Nat.toDigits 10) := by
  intro parts
  induction parts with
  | nil =>
    intro i m h _
    have hz : m - i = 0 := by
      simp only [List.length_nil, Nat.add_zero] at h
      omega
    rw [hz]
    rfl
  | cons p ps ih =>
    intro i m h hnd
    have hA : ((if p ≠ [] ∧ cleanPiece p ≠ [] then [cleanPiece p] else []).map
        digitRuns).flatten = [] := by
      by_cases hc : p ≠ [] ∧ cleanPiece p ≠ []
      · rw [if_pos hc]
        simp [DR_nodigit (hnd p (List.mem_cons_self _ _))]
      · rw [if_neg hc]
        rfl
    cases ps with
    | nil =>
      have him : i = m := by
        simp only [List.length_singleton] at h
        omega
      show (((if p ≠ [] ∧ cleanPiece p ≠ [] then [cleanPiece p] else []) ++
        (if i < m then [Nat.toDigits 10 i] else []) ++ buildOut [] (i + 1) m).map
          digitRuns).flatten = _
      rw [if_neg (show ¬ i < m by omega),
        show buildOut [] (i + 1) m = [] from rfl]
      simp only [List.append_nil, List.map_append, List.flatten_append]
      rw [hA]
      have hz : m - i = 0 := by omega
      rw [hz]
      rfl
    | cons p2 ps' =>
      have hlt : i < m := by simp at h; omega
      show (((if p ≠ [] ∧ cleanPiece p ≠ [] then [cleanPiece p] else []) ++
        (if i < m then [Nat.toDigits 10 i] else []) ++
        buildOut (p2 :: ps') (i + 1) m).map digitRuns).flatten = _
      rw [if_pos hlt]
      simp only [List.map_append, List.flatten_append]
      rw [hA]
      have hB : (([Nat.toDigits 10 i] : List (List Char)).map digitRuns).flatten =
          [Nat.toDigits 10 i] := by
        simp [DR_alldigit _ (toDigits_ne_nil i) (toDigits_digits i)]
      rw [hB]
      rw [ih (i + 1) m (by simp at h ⊢; omega)
        (fun q hq => hnd q (List.mem_cons_of_mem _ hq))]
      have hrange : List.range' i (m - i) =
          i :: List.range' (i + 1) (m - (i + 1)) := by
        have h1 : m - i = (m - (i + 1)) + 1 := by omega
        rw [h1]
        rfl
      rw [hrange]
      simp

/-- C3, counterexample.  On the input `"version 2"` — which contains the
literal digit `2` and no format tokens — the derived key is `"version-2"`:
it exhibits one digit indicator, while `normalize` returns zero matches, so
the claimed count equality fails. -/
theorem C3_counterexample :
    slugify "version 2".data = "version-2".data ∧
      digitRuns (slugify "version 2".data) = [['2']] ∧
      (normalize "version 2".data).2.length = 0 ∧
      (digitRuns (slugify "version 2".data)).length ≠
        (normalize "version 2".data).2.length :=
  ⟨by decide, by decide, by decide, by decide⟩

/-- C3, amended: for every input string **containing no decimal-digit
characters**, the maximal digit runs appearing in the key produced by
`slugify` are exactly the decimal representations of `0, 1, …, n-1` in
left-to-right order, where `n` is the number of token matches returned by
`normalize` — so in particular their count equals the match count.  (For
inputs that already contain digits, literal digits survive into the key and
the counts can differ, as the counterexample records.) -/
theorem C3_digitRuns_amended (s : List Char) (h : ∀ x ∈ s, x.isDigit = false) :
    digitRuns (slugify s) =
      (List.range (normalize s).2.length).map (Nat.toDigits 10) := by
  rw [slugify_eq]
  have hne : ∀ q ∈ buildOut (splitParts s) 0 (findMatches s).length, q ≠ [] :=
    fun q hq => (buildOut_good _ _ _ q hq).1
  rw [DR_join _ hne, buildOut_runs _ _ _ (by
      rw [Nat.zero_add]
      exact spGo_fmGo_length s none)
    (by
      intro p hp x hx
      refine cleanPiece_no_digit ?_ hx
      intro z hz
      have hzs := spGo_mem s none p hp z hz
      simp only [Option.toList, List.nil_append] at hzs
      exact h z hzs)]
  rw [Nat.sub_zero, ← List.range_eq_range']
  rfl

/-- C3, witness: the amended theorem applied to a digit-free two-token format
string, evaluated. -/
theorem C3_digitRuns_witness :
    digitRuns (slugify "Welcome %s, you have %d messages".data) =
      (List.range (normalize "Welcome %s, you have %d messages".data).2.length).map
        (Nat.toDigits 10) :=
  C3_digitRuns_amended "Welcome %s, you have %d messages".data (by decide)

end I18n
